import Mathlib

/-!
Shallow embedding of the telemetry observer aggregation engine
(`src/backend/telemetry_observer/src/main.rs`) and verification of its
specified properties.

The embedding models:
* the node registry (`nodes: HashMap<String, NodeInfo>`) and block ledger
  (`blocks: HashMap<String, BlockInfo>`) as insertion-ordered association
  lists (a deterministic refinement of the unspecified `HashMap` iteration
  order);
* `process_block_import` (lines 220-435) as a pure state transformer
  returning the emitted CSV rows;
* `process_node_message`'s registry insertion (lines 202-209);
* the serde-`Value` shape checks of `process_block_import` (lines 222-253)
  over a small JSON value type.

Machine integers (`u64`) are modelled as `Nat`; none of the verified
properties involves wrap-around at 2^64 (counts stay tiny, and the one
subtraction that could underflow, `now - first_seen`, is the subject of a
dedicated safety property establishing the no-underflow precondition on
reachable states).
-/

namespace TelemetryObs

/-- `NodeInfo` (main.rs lines 39-43). -/
structure NodeInfo where
  name : String
  node_id : String
deriving DecidableEq

/-- `BlockReporter` (main.rs lines 45-51). -/
structure BlockReporter where
  node_idx : Nat
  node_name : String
  node_id : String
  timestamp : Nat
deriving DecidableEq

/-- `BlockInfo` (main.rs lines 53-61).  `output` is the finalized flag. -/
structure BlockInfo where
  block_number : Nat
  lowest_prop_time : Nat
  reporters : List BlockReporter
  first_seen : Nat
  report_count : Nat
  output : Bool
deriving DecidableEq

/-- One CSV row as written at main.rs lines 344-351 / 400-407. -/
structure OutputRow where
  timestamp : Nat
  node_name : String
  node_id : String
  block_number : Nat
  block_hash : String
  propagation_time : Nat
deriving DecidableEq

/-- The two persisted maps of `TelemetryObserver` (main.rs lines 68-69),
with `HashMap` modelled as an insertion-ordered association list. -/
structure ObserverState where
  nodes : List (String × NodeInfo)
  blocks : List (String × BlockInfo)
deriving DecidableEq

/-- `HashMap::get` on the association-list model. -/
def lookupA {α : Type} (k : String) : List (String × α) → Option α
  | [] => none
  | (k2, v) :: t => if k2 = k then some v else lookupA k t

/-- `HashMap::insert` on the association-list model: overwrite in place or
append. -/
def insertA {α : Type} (k : String) (v : α) : List (String × α) → List (String × α)
  | [] => [(k, v)]
  | (k2, v2) :: t => if k2 = k then (k2, v) :: t else (k2, v2) :: insertA k v t

/-- In-place mutation of the entry for `k` (the effect of mutating through
`HashMap::entry`). -/
def updateA {α : Type} (k : String) (f : α → α) : List (String × α) → List (String × α)
  | [] => []
  | (k2, v) :: t => if k2 = k then (k2, f v) :: t else (k2, v) :: updateA k f t

/-- A decoded BlockImport event, together with the wall-clock second `now`
read at main.rs line 265. -/
structure BlockImportEv where
  node_idx : Nat
  block_number : Nat
  block_hash : String
  propagation_time : Nat
  now : Nat
deriving DecidableEq

/-- The fresh record inserted by `or_insert` (main.rs lines 284-291); the
lowest-propagation-time sentinel is the literal `999999`. -/
def newBlock (e : BlockImportEv) : BlockInfo :=
  { block_number := e.block_number
    lowest_prop_time := 999999
    reporters := []
    first_seen := e.now
    report_count := 0
    output := false }

/-- Node-name resolution (main.rs lines 273-276). -/
def nodeNameOf (st : ObserverState) (node_idx : Nat) : String :=
  match lookupA (toString node_idx) st.nodes with
  | some n => n.name
  | none => "unknown_node_" ++ toString node_idx

/-- Node-id resolution (main.rs lines 277-279). -/
def nodeIdOf (st : ObserverState) (node_idx : Nat) : String :=
  match lookupA (toString node_idx) st.nodes with
  | some n => n.node_id
  | none => "unknown_id"

/-- The per-record mutation of main.rs lines 293-312: bump `report_count`,
then lower `lowest_prop_time` / replace or extend `reporters`. -/
def blockUpdate (e : BlockImportEv) (node_name node_id : String) (b : BlockInfo) : BlockInfo :=
  let b1 := { b with report_count := b.report_count + 1 }
  if e.propagation_time < b1.lowest_prop_time then
    { b1 with
        lowest_prop_time := e.propagation_time
        reporters := [⟨e.node_idx, node_name, node_id, e.now⟩] }
  else if e.propagation_time = b1.lowest_prop_time then
    if b1.reporters.any (fun r => r.node_idx == e.node_idx) then b1
    else { b1 with reporters := b1.reporters ++ [⟨e.node_idx, node_name, node_id, e.now⟩] }
  else b1

/-- `blocks.values().map(block_number).max().unwrap_or(0)` (main.rs line 315). -/
def maxBlock (blocks : List (String × BlockInfo)) : Nat :=
  (blocks.map (fun p => p.2.block_number)).foldr max 0

/-- One iteration of the finalization sweep (main.rs lines 324-354) on a
single ledger entry: decide `should_output`, emit one row per reporter and
set the flag when it fires. -/
def sweepOne (now max_block : Nat) (h : String) (b : BlockInfo) : BlockInfo × List OutputRow :=
  let time_since_first := now - b.first_seen
  let should_output := !b.output &&
    (decide (3 ≤ b.report_count) || decide (3 < time_since_first) ||
      decide (b.block_number < max_block - 1))
  if should_output then
    ({ b with output := true },
      b.reporters.map (fun r =>
        ⟨r.timestamp, r.node_name, r.node_id, b.block_number, h, b.lowest_prop_time⟩))
  else (b, [])

/-- The full finalization sweep over the ledger in iteration order. -/
def sweepAll (now max_block : Nat) : List (String × BlockInfo) →
    List (String × BlockInfo) × List OutputRow
  | [] => ([], [])
  | (h, b) :: t =>
    let p := sweepOne now max_block h b
    let rest := sweepAll now max_block t
    ((h, p.1) :: rest.1, p.2 ++ rest.2)

/-- Stable insertion of one `(hash, height)` pair into a
descending-by-height list. -/
def insDesc (x : String × Nat) : List (String × Nat) → List (String × Nat)
  | [] => [x]
  | y :: t => if y.2 ≤ x.2 then x :: y :: t else y :: insDesc x t

/-- Stable descending sort by height, modelling
`sort_by_key(|(_, num)| Reverse(*num))` (main.rs line 382). -/
def sortDesc : List (String × Nat) → List (String × Nat)
  | [] => []
  | x :: t => insDesc x (sortDesc t)

/-- The retention pass of main.rs lines 377-387: sort all `(hash, height)`
pairs by height descending and remove every hash past the first 100. -/
def retention (blocks : List (String × BlockInfo)) : List (String × BlockInfo) :=
  let block_list := sortDesc (blocks.map (fun p => (p.1, p.2.block_number)))
  if 100 < block_list.length then
    blocks.filter (fun p => !(((block_list.drop 100).map Prod.fst).contains p.1))
  else blocks

/-- The ledger after the `entry(..).or_insert(..)` step (main.rs lines
283-291): unchanged when the hash is tracked, else the fresh record is
added. -/
def blocksAfterEntry (blocks : List (String × BlockInfo)) (e : BlockImportEv) :
    List (String × BlockInfo) :=
  if (lookupA e.block_hash blocks).isSome then blocks
  else blocks ++ [(e.block_hash, newBlock e)]

/-- The ledger after the per-record mutation of main.rs lines 293-312. -/
def blocksAfterUpdate (st : ObserverState) (e : BlockImportEv) :
    List (String × BlockInfo) :=
  updateA e.block_hash (blockUpdate e (nodeNameOf st e.node_idx) (nodeIdOf st e.node_idx))
    (blocksAfterEntry st.blocks e)

/-- `process_block_import` after decoding (main.rs lines 260-414):
validation, get-or-create, record update, finalization sweep, retention.
Returns the successor state and the rows appended to the CSV. -/
def processBlockImport (st : ObserverState) (e : BlockImportEv) :
    ObserverState × List OutputRow :=
  if e.block_hash = "" ∨ e.propagation_time = 0 then (st, [])
  else
    let blocks1 := blocksAfterUpdate st e
    let swept := sweepAll e.now (maxBlock blocks1) blocks1
    ({ st with blocks := retention swept.1 }, swept.2)

/-- The registry insertion done by `process_node_message`
(main.rs lines 202-209). -/
def processNodeAnnounce (st : ObserverState) (ordinal : Nat) (name node_id : String) :
    ObserverState × List OutputRow :=
  ({ st with nodes := insertA (toString ordinal) ⟨name, node_id⟩ st.nodes }, [])

/-- The two decoded event kinds consumed by the aggregator (spec section 6).
`now` on a block import is the wall-clock second read while processing it. -/
inductive Event where
  | nodeAnnounce (ordinal : Nat) (name node_id : String)
  | blockImport (node_idx block_number : Nat) (block_hash : String)
      (propagation_time now : Nat)
deriving DecidableEq

/-- Dispatch of one decoded event (main.rs lines 141-156). -/
def step (st : ObserverState) : Event → ObserverState × List OutputRow
  | .nodeAnnounce o n i => processNodeAnnounce st o n i
  | .blockImport ni bn h p now => processBlockImport st ⟨ni, bn, h, p, now⟩

/-- Serial processing of a list of events, concatenating the emitted rows. -/
def runEvents (st : ObserverState) : List Event → ObserverState × List OutputRow
  | [] => (st, [])
  | e :: t =>
    let p := step st e
    let rest := runEvents p.1 t
    (rest.1, p.2 ++ rest.2)

/-- The empty starting state (fresh snapshot files). -/
def initState : ObserverState := ⟨[], []⟩

/-! ### The serde-`Value` shape layer of `process_block_import`

`process_block_import` receives the raw JSON array and performs shape
checks (main.rs lines 222-253) before the validation at line 260; scalar
fields are read with `as_u64().unwrap_or(0)` / `as_str().unwrap_or("")`.
-/

/-- The fragment of `serde_json::Value` exercised by the decoder. -/
inductive Json where
  | null
  | bool (b : Bool)
  | num (n : Nat)
  | str (s : String)
  | arr (elems : List Json)

/-- `Value::as_u64`. -/
def Json.as_u64 : Json → Option Nat
  | .num n => some n
  | _ => none

/-- `Value::as_str`. -/
def Json.as_str : Json → Option String
  | .str s => some s
  | _ => none

/-- `Value::as_array`. -/
def Json.as_array : Json → Option (List Json)
  | .arr l => some l
  | _ => none

/-- Indexing into a JSON array; out-of-range yields `null` (the code only
indexes after a length check, so the default is never observed). -/
def jGet (l : List Json) (i : Nat) : Json := l.getD i .null

/-- The shape checks and field extraction of main.rs lines 222-253.
`none` models the early `return Ok(())` paths (outer array shorter than 2
or payload not an array, inner data shorter than 2 or block data not an
array, block data shorter than 5); scalar fields that are missing or not
of the expected type are DEFAULTED (`unwrap_or`), not rejected. -/
def decodeBlockImport (a : List Json) : Option (Nat × Nat × String × Nat) :=
  if a.length < 2 then none
  else match (jGet a 1).as_array with
    | none => none
    | some data =>
      if data.length < 2 then none
      else match (jGet data 1).as_array with
        | none => none
        | some block_data =>
          if block_data.length < 5 then none
          else
            some ((jGet data 0).as_u64.getD 0,
              (jGet block_data 0).as_u64.getD 0,
              (jGet block_data 1).as_str.getD "",
              (jGet block_data 4).as_u64.getD 0)

/-- `process_block_import` from the raw JSON array (main.rs lines 220-435):
shape checks, then the validated aggregation step. -/
def processBlockImportRaw (st : ObserverState) (a : List Json) (now : Nat) :
    ObserverState × List OutputRow :=
  match decodeBlockImport a with
  | none => (st, [])
  | some (ni, bn, h, p) => processBlockImport st ⟨ni, bn, h, p, now⟩

/-! ### Ghost observables used by the statements -/

/-- All `(nodeOrdinal, propagationTime)` reports carried by BlockImport
events for hash `h` in an event list (the reporting history of `h`). -/
def reports (evs : List Event) (h : String) : List (Nat × Nat) :=
  evs.filterMap (fun e => match e with
    | .blockImport ni _ bh p _ => if bh = h then some (ni, p) else none
    | _ => none)

/-- The wall-clock second carried by an event (0 for announces, which
read no clock in the modelled fragment). -/
def eventTime : Event → Nat
  | .nodeAnnounce _ _ _ => 0
  | .blockImport _ _ _ _ now => now

/-- The most recent propagation time reported by `node` for hash `h` in an
event list (the ghost observable quantified by the reporter-set
invariant). -/
def lastReport (evs : List Event) (node : Nat) (h : String) : Option Nat :=
  (reports evs h).foldl (fun acc q => if q.1 = node then some q.2 else acc) none

/-- Well-formedness of a state: ledger keys are distinct (a `HashMap`
invariant of the source representation). -/
def WF (st : ObserverState) : Prop := (st.blocks.map Prod.fst).Nodup

/-! ### Concrete scenario material

Closed-form states for the long scenario runs (150 fresh imports at
increasing heights; finalize-evict-resurrect), used to settle the
retention and finalization claims without evaluating 150-step runs in one
go. -/

/-- The `j`-th scenario hash: `j` copies of the letter h (distinct for
distinct `j`, nonempty for `j ≥ 1`, and never equal to "0xAA"). -/
def hD (j : Nat) : String := String.mk (List.replicate j 'h')

/-- The reporter produced for unannounced node 1 at clock 0. -/
def rep1 : BlockReporter := ⟨1, "unknown_node_1", "unknown_id", 0⟩

/-- Scenario D ledger entry: hash `hD j` at height `j`, reported once by
node 1 at clock 0; finalized relative to a tallest height `K`. -/
def entD (K j : Nat) : String × BlockInfo :=
  (hD j, ⟨j, 5, [rep1], 0, 1, decide (j + 1 < K)⟩)

/-- All `k` scenario D records (heights 1..k) with flags relative to
tallest height `k`. -/
def fullD (k : Nat) : List (String × BlockInfo) :=
  (List.range k).map (fun i => entD k (i + 1))

/-- Closed form of the observer state after the first `k` scenario D
events: the retention window keeps the 100 tallest records. -/
def stD (k : Nat) : ObserverState := ⟨[], (fullD k).drop (k - 100)⟩

/-- The `k`-th scenario D event: node 1 imports fresh hash `hD (k+1)` at
height `k+1`, propagation time 5, clock 0. -/
def evD (k : Nat) : Event := .blockImport 1 (k + 1) (hD (k + 1)) 5 0

/-- The 150 scenario D events (150 distinct hashes, strictly increasing
heights). -/
def evsD : List Event := (List.range 150).map evD

/-- Three imports of hash "0xAA" at height 1 by nodes 1, 2, 3, all with
propagation time 5 at clock 0 (drives the record to `report_count = 3`,
hence finalization). -/
def evsA : List Event :=
  [.blockImport 1 1 "0xAA" 5 0, .blockImport 2 1 "0xAA" 5 0, .blockImport 3 1 "0xAA" 5 0]

/-- The reporter set of the "0xAA" record after `evsA`. -/
def rsA : List BlockReporter :=
  [⟨1, "unknown_node_1", "unknown_id", 0⟩, ⟨2, "unknown_node_2", "unknown_id", 0⟩,
    ⟨3, "unknown_node_3", "unknown_id", 0⟩]

/-- Ledger entry `i` after `n` filler events following `evsA`: entry 0 is
the finalized "0xAA" record (height 1); entry `i ≥ 1` is the filler record
`hD (i+1)` at height `i+1`. -/
def entC4 (n i : Nat) : String × BlockInfo :=
  if i = 0 then ("0xAA", ⟨1, 5, rsA, 0, 3, true⟩)
  else (hD (i + 1), ⟨i + 1, 5, [rep1], 0, 1, decide (i + 1 < n)⟩)

/-- Closed form of the state after `evsA` and then `n` filler events. -/
def stC4 (n : Nat) : ObserverState :=
  ⟨[], ((List.range (n + 1)).map (entC4 n)).drop (n + 1 - 100)⟩

/-- The `n`-th filler event: node 1 imports fresh hash `hD (n+2)` at
height `n+2`, propagation time 5, clock 0. -/
def evC4 (n : Nat) : Event := .blockImport 1 (n + 2) (hD (n + 2)) 5 0

/-- The 100 filler events whose retention pass evicts the finalized
"0xAA" record. -/
def evsB : List Event := (List.range 100).map evC4

/-- A fresh import of the evicted hash "0xAA" (height 1, far behind the
tallest height 101). -/
def e3 : Event := .blockImport 1 1 "0xAA" 5 0

/-- A 101-entry ledger with distinct keys and strictly decreasing heights
1000, 999, ..., 900, used to exercise the retention pass. -/
def wit3 : List (String × BlockInfo) :=
  (List.range 101).map (fun i => (toString i, ⟨1000 - i, 5, [], 0, 1, false⟩))

/-! ### Association-list lemmas -/

theorem lookupA_eq_none_iff {α : Type} (k : String) (l : List (String × α)) :
    lookupA k l = none ↔ ∀ p ∈ l, p.1 ≠ k := by
  induction l with
  | nil => simp [lookupA]
  | cons hd t ih =>
    obtain ⟨k2, v⟩ := hd
    by_cases h : k2 = k <;> simp [lookupA, h, ih]

theorem lookupA_append_of_none {α : Type} {k : String} {l1 : List (String × α)}
    (l2 : List (String × α)) (h : lookupA k l1 = none) :
    lookupA k (l1 ++ l2) = lookupA k l2 := by
  induction l1 with
  | nil => simp
  | cons hd t ih =>
    obtain ⟨k2, v⟩ := hd
    by_cases hk : k2 = k
    · simp [lookupA, hk] at h
    · simp only [lookupA, hk, if_false, List.cons_append] at h ⊢
      exact ih h

theorem lookupA_append_of_some {α : Type} {k : String} {l1 : List (String × α)} {v : α}
    (l2 : List (String × α)) (h : lookupA k l1 = some v) :
    lookupA k (l1 ++ l2) = some v := by
  induction l1 with
  | nil => simp [lookupA] at h
  | cons hd t ih =>
    obtain ⟨k2, w⟩ := hd
    by_cases hk : k2 = k
    · simp only [lookupA, hk, if_true] at h ⊢
      exact h
    · simp only [lookupA, hk, if_false, List.cons_append] at h ⊢
      exact ih h

theorem lookupA_singleton {α : Type} (k : String) (v : α) :
    lookupA k [(k, v)] = some v := by
  simp [lookupA]

theorem lookupA_updateA {α : Type} (h k : String) (f : α → α) (l : List (String × α)) :
    lookupA h (updateA k f l) = if h = k then (lookupA k l).map f else lookupA h l := by
  induction l with
  | nil => by_cases hk : h = k <;> simp [lookupA, updateA, hk]
  | cons hd t ih =>
    obtain ⟨k2, v⟩ := hd
    by_cases h2 : k2 = k
    · subst h2
      by_cases h1 : h = k2
      · subst h1
        simp [lookupA, updateA]
      · have h1' : ¬ k2 = h := fun e => h1 e.symm
        simp [lookupA, updateA, h1, h1']
    · by_cases h1 : h = k2
      · subst h1
        simp [lookupA, updateA, h2, ih, fun e : k = h => h2 e.symm]
      · have h1' : ¬ k2 = h := fun e => h1 e.symm
        simp [lookupA, updateA, h2, h1, h1', ih]

theorem keys_updateA {α : Type} (k : String) (f : α → α) (l : List (String × α)) :
    (updateA k f l).map Prod.fst = l.map Prod.fst := by
  induction l with
  | nil => rfl
  | cons hd t ih =>
    obtain ⟨k2, v⟩ := hd
    by_cases h : k2 = k <;> simp [updateA, h, ih]

theorem length_updateA {α : Type} (k : String) (f : α → α) (l : List (String × α)) :
    (updateA k f l).length = l.length := by
  induction l with
  | nil => rfl
  | cons hd t ih =>
    obtain ⟨k2, v⟩ := hd
    by_cases h : k2 = k <;> simp [updateA, h, ih]

theorem mem_updateA {α : Type} {p : String × α} {k : String} {f : α → α}
    {l : List (String × α)} (hp : p ∈ updateA k f l) :
    p ∈ l ∨ ∃ q ∈ l, p = (q.1, f q.2) := by
  induction l with
  | nil => simp [updateA] at hp
  | cons hd t ih =>
    obtain ⟨k2, v⟩ := hd
    by_cases h : k2 = k
    · subst h
      simp only [updateA, if_true, List.mem_cons] at hp
      rcases hp with hp | hp
      · exact Or.inr ⟨(k2, v), List.mem_cons_self _ _, hp⟩
      · exact Or.inl (List.mem_cons_of_mem _ hp)
    · simp only [updateA, h, if_false, List.mem_cons] at hp
      rcases hp with hp | hp
      · exact Or.inl (hp ▸ List.mem_cons_self _ _)
      · rcases ih hp with hq | ⟨q, hq, hq2⟩
        · exact Or.inl (List.mem_cons_of_mem _ hq)
        · exact Or.inr ⟨q, List.mem_cons_of_mem _ hq, hq2⟩

theorem lookupA_of_mem_wf {α : Type} {l : List (String × α)} {p : String × α}
    (hw : (l.map Prod.fst).Nodup) (hp : p ∈ l) : lookupA p.1 l = some p.2 := by
  induction l with
  | nil => simp at hp
  | cons hd t ih =>
    obtain ⟨k2, v⟩ := hd
    simp only [List.map_cons, List.nodup_cons] at hw
    rcases List.mem_cons.mp hp with hp | hp
    · subst hp
      simp [lookupA]
    · have hne : k2 ≠ p.1 := by
        intro he
        exact hw.1 (he ▸ List.mem_map.mpr ⟨p, hp, rfl⟩)
      simp only [lookupA, hne, if_false]
      exact ih hw.2 hp

theorem mem_of_lookupA {α : Type} {l : List (String × α)} {k : String} {v : α}
    (h : lookupA k l = some v) : (k, v) ∈ l := by
  induction l with
  | nil => simp [lookupA] at h
  | cons hd t ih =>
    obtain ⟨k2, w⟩ := hd
    by_cases hk : k2 = k
    · subst hk
      simp only [lookupA, if_true] at h
      simp only [Option.some.injEq] at h
      exact h ▸ List.mem_cons_self _ _
    · simp only [lookupA, hk, if_false] at h
      exact List.mem_cons_of_mem _ (ih h)

theorem lookupA_filter_some {α : Type} {l : List (String × α)} {q : String × α → Bool}
    {k : String} {v : α} (hw : (l.map Prod.fst).Nodup)
    (h : lookupA k (l.filter q) = some v) : lookupA k l = some v := by
  induction l with
  | nil => exact h
  | cons hd t ih =>
    obtain ⟨k2, w⟩ := hd
    simp only [List.map_cons, List.nodup_cons] at hw
    by_cases hk : k2 = k
    · subst hk
      by_cases hq : q (k2, w)
      · simp only [List.filter_cons_of_pos hq, lookupA, if_true] at h
        simpa [lookupA] using h
      · simp only [List.filter_cons_of_neg (by simpa using hq)] at h
        have hnone : lookupA k2 (t.filter q) = none := by
          rw [lookupA_eq_none_iff]
          intro p hp he
          exact hw.1 (he ▸ List.mem_map.mpr ⟨p, List.mem_of_mem_filter hp, rfl⟩)
        rw [hnone] at h
        exact absurd h (by simp)
    · by_cases hq : q (k2, w)
      · simp only [List.filter_cons_of_pos hq, lookupA, hk, if_false] at h
        simp only [lookupA, hk, if_false]
        exact ih hw.2 h
      · simp only [List.filter_cons_of_neg (by simpa using hq)] at h
        simp only [lookupA, hk, if_false]
        exact ih hw.2 h

theorem eq_of_mem_keys_nodup {α : Type} {l : List (String × α)} {p q : String × α}
    (hw : (l.map Prod.fst).Nodup) (hp : p ∈ l) (hq : q ∈ l) (hk : p.1 = q.1) : p = q := by
  have h1 := lookupA_of_mem_wf hw hp
  have h2 := lookupA_of_mem_wf hw hq
  rw [hk, h2] at h1
  obtain ⟨a, b⟩ := p
  obtain ⟨c, d⟩ := q
  simp only [Option.some.injEq] at h1
  simp only at hk h1
  rw [hk, h1]

/-! ### Finalization-sweep lemmas -/

theorem sweepAll_eq (now mx : Nat) (l : List (String × BlockInfo)) :
    sweepAll now mx l =
      (l.map (fun p => (p.1, (sweepOne now mx p.1 p.2).1)),
        l.flatMap (fun p => (sweepOne now mx p.1 p.2).2)) := by
  induction l with
  | nil => rfl
  | cons hd t ih =>
    obtain ⟨h, b⟩ := hd
    simp [sweepAll, ih, List.flatMap]

theorem sweepOne_of_output_true {now mx : Nat} {h : String} {b : BlockInfo}
    (hb : b.output = true) : sweepOne now mx h b = (b, []) := by
  simp [sweepOne, hb]

theorem sweepOne_fst_cases (now mx : Nat) (h : String) (b : BlockInfo) :
    (sweepOne now mx h b).1 = b ∨ (sweepOne now mx h b).1 = { b with output := true } := by
  unfold sweepOne
  by_cases hs : (!b.output &&
      (decide (3 ≤ b.report_count) || decide (3 < now - b.first_seen) ||
        decide (b.block_number < mx - 1))) = true
  · simp [hs]
  · simp [hs]

theorem sweepOne_fst_output {now mx : Nat} {h : String} {b : BlockInfo}
    (hb : b.output = true) : ((sweepOne now mx h b).1).output = true := by
  rw [sweepOne_of_output_true hb]
  exact hb

theorem sweepOne_fst_fields (now mx : Nat) (h : String) (b : BlockInfo) :
    ((sweepOne now mx h b).1).block_number = b.block_number ∧
    ((sweepOne now mx h b).1).lowest_prop_time = b.lowest_prop_time ∧
    ((sweepOne now mx h b).1).reporters = b.reporters ∧
    ((sweepOne now mx h b).1).first_seen = b.first_seen ∧
    ((sweepOne now mx h b).1).report_count = b.report_count := by
  rcases sweepOne_fst_cases now mx h b with hc | hc <;> rw [hc] <;> exact ⟨rfl, rfl, rfl, rfl, rfl⟩

theorem sweepOne_rows_ne_nil {now mx : Nat} {h : String} {b : BlockInfo}
    (hr : (sweepOne now mx h b).2 ≠ []) : b.output = false := by
  by_cases hb : b.output = true
  · rw [sweepOne_of_output_true hb] at hr
    exact absurd rfl hr
  · exact Bool.eq_false_iff.mpr (fun he => hb he)

theorem mem_sweepAll_rows {now mx : Nat} {l : List (String × BlockInfo)} {r : OutputRow}
    (hr : r ∈ (sweepAll now mx l).2) :
    ∃ p ∈ l, p.1 = r.block_hash ∧ p.2.output = false := by
  rw [sweepAll_eq] at hr
  simp only [List.mem_flatMap] at hr
  obtain ⟨p, hp, hrp⟩ := hr
  refine ⟨p, hp, ?_, ?_⟩
  · unfold sweepOne at hrp
    by_cases hs : (!p.2.output &&
        (decide (3 ≤ p.2.report_count) || decide (3 < now - p.2.first_seen) ||
          decide (p.2.block_number < mx - 1))) = true
    · simp only [hs, if_true] at hrp
      obtain ⟨w, _, hw⟩ := List.mem_map.mp hrp
      exact (congrArg OutputRow.block_hash hw).symm ▸ rfl
    · simp [hs] at hrp
  · refine @sweepOne_rows_ne_nil now mx p.1 p.2 (fun he => ?_)
    rw [he] at hrp
    exact absurd hrp (List.not_mem_nil r)

theorem sweepAll_fst (now mx : Nat) (l : List (String × BlockInfo)) :
    (sweepAll now mx l).1 = l.map (fun p => (p.1, (sweepOne now mx p.1 p.2).1)) := by
  rw [sweepAll_eq]

theorem keys_sweepAll (now mx : Nat) (l : List (String × BlockInfo)) :
    ((sweepAll now mx l).1).map Prod.fst = l.map Prod.fst := by
  rw [sweepAll_fst, List.map_map]
  rfl

theorem lookupA_sweepAll (now mx : Nat) (h : String) (l : List (String × BlockInfo)) :
    lookupA h ((sweepAll now mx l).1) = (lookupA h l).map (fun b => (sweepOne now mx h b).1) := by
  rw [sweepAll_fst]
  induction l with
  | nil => rfl
  | cons hd t ih =>
    obtain ⟨k2, b⟩ := hd
    by_cases hk : k2 = h
    · subst hk
      simp [lookupA]
    · simp [lookupA, hk, ih]

/-! ### maxBlock lemmas -/

theorem foldr_max_shift (l : List Nat) (a : Nat) :
    l.foldr max a = max (l.foldr max 0) a := by
  induction l with
  | nil => simp
  | cons x t ih =>
    simp only [List.foldr_cons, ih]
    exact (Nat.max_assoc x _ a).symm

theorem maxBlock_append (l1 l2 : List (String × BlockInfo)) :
    maxBlock (l1 ++ l2) = max (maxBlock l1) (maxBlock l2) := by
  unfold maxBlock
  rw [List.map_append, List.foldr_append, foldr_max_shift _ (List.foldr max 0 _)]

theorem maxBlock_le {l : List (String × BlockInfo)} {n : Nat}
    (h : ∀ p ∈ l, p.2.block_number ≤ n) : maxBlock l ≤ n := by
  induction l with
  | nil => exact Nat.zero_le n
  | cons hd t ih =>
    have h1 : hd.2.block_number ≤ n := h hd (List.mem_cons_self _ _)
    have h2 : maxBlock t ≤ n := ih (fun p hp => h p (List.mem_cons_of_mem _ hp))
    simpa [maxBlock] using Nat.max_le.mpr ⟨h1, h2⟩

theorem le_maxBlock {l : List (String × BlockInfo)} {p : String × BlockInfo}
    (hp : p ∈ l) : p.2.block_number ≤ maxBlock l := by
  induction l with
  | nil => simp at hp
  | cons hd t ih =>
    rcases List.mem_cons.mp hp with hp | hp
    · subst hp
      simp only [maxBlock, List.map_cons, List.foldr_cons]
      exact Nat.le_max_left _ _
    · have := ih hp
      simp only [maxBlock, List.map_cons, List.foldr_cons] at this ⊢
      exact this.trans (Nat.le_max_right _ _)

/-! ### Sorting lemmas for the retention pass -/

theorem insDesc_perm (x : String × Nat) (l : List (String × Nat)) :
    (insDesc x l).Perm (x :: l) := by
  induction l with
  | nil => exact List.Perm.refl _
  | cons y t ih =>
    by_cases h : y.2 ≤ x.2
    · simp [insDesc, h]
    · simp only [insDesc, h, if_false]
      exact (ih.cons y).trans (List.Perm.swap x y t)

theorem sortDesc_perm (l : List (String × Nat)) : (sortDesc l).Perm l := by
  induction l with
  | nil => exact List.Perm.refl _
  | cons x t ih =>
    exact (insDesc_perm x (sortDesc t)).trans (ih.cons x)

theorem sortDesc_length (l : List (String × Nat)) : (sortDesc l).length = l.length :=
  (sortDesc_perm l).length_eq

theorem mem_insDesc {x y : String × Nat} {l : List (String × Nat)} :
    y ∈ insDesc x l ↔ y = x ∨ y ∈ l := by
  constructor
  · intro h
    have := (insDesc_perm x l).mem_iff.mp h
    simpa using this
  · intro h
    refine (insDesc_perm x l).mem_iff.mpr ?_
    simpa using h

theorem insDesc_sorted {x : String × Nat} {l : List (String × Nat)}
    (hs : l.Pairwise (fun a b => b.2 ≤ a.2)) :
    (insDesc x l).Pairwise (fun a b => b.2 ≤ a.2) := by
  induction l with
  | nil => simp [insDesc]
  | cons y t ih =>
    rcases List.pairwise_cons.mp hs with ⟨hy, ht⟩
    by_cases h : y.2 ≤ x.2
    · simp only [insDesc, h, if_true]
      refine List.pairwise_cons.mpr ⟨?_, hs⟩
      intro z hz
      rcases List.mem_cons.mp hz with hz | hz
      · exact hz ▸ h
      · exact (hy z hz).trans h
    · simp only [insDesc, h, if_false]
      refine List.pairwise_cons.mpr ⟨?_, ih ht⟩
      intro z hz
      rcases mem_insDesc.mp hz with hz | hz
      · exact hz ▸ Nat.le_of_lt (Nat.lt_of_not_le h)
      · exact hy z hz

theorem sortDesc_sorted (l : List (String × Nat)) :
    (sortDesc l).Pairwise (fun a b => b.2 ≤ a.2) := by
  induction l with
  | nil => simp [sortDesc]
  | cons x t ih => exact insDesc_sorted ih

theorem insDesc_of_forall_lt {x : String × Nat} {l : List (String × Nat)}
    (h : ∀ y ∈ l, x.2 < y.2) : insDesc x l = l ++ [x] := by
  induction l with
  | nil => rfl
  | cons y t ih =>
    have hy : ¬ y.2 ≤ x.2 := Nat.not_le.mpr (h y (List.mem_cons_self _ _))
    simp only [insDesc, hy, if_false, List.cons_append, List.cons.injEq, true_and]
    exact ih (fun z hz => h z (List.mem_cons_of_mem _ hz))

theorem sortDesc_of_pairwise_lt {l : List (String × Nat)}
    (h : l.Pairwise (fun a b => a.2 < b.2)) : sortDesc l = l.reverse := by
  induction l with
  | nil => rfl
  | cons x t ih =>
    rcases List.pairwise_cons.mp h with ⟨hx, ht⟩
    have : sortDesc (x :: t) = insDesc x (sortDesc t) := rfl
    rw [this, ih ht, insDesc_of_forall_lt, List.reverse_cons]
    intro y hy
    exact hx y (List.mem_reverse.mp hy)

/-! ### Retention lemmas -/

theorem retention_of_length_le {l : List (String × BlockInfo)}
    (h : l.length ≤ 100) : retention l = l := by
  unfold retention
  have hlen : (sortDesc (l.map (fun p => (p.1, p.2.block_number)))).length = l.length := by
    rw [sortDesc_length, List.length_map]
  simp only [hlen]
  rw [if_neg (Nat.not_lt.mpr h)]

theorem contains_iff_mem {l : List String} {s : String} :
    l.contains s = true ↔ s ∈ l := by
  simp [List.contains_iff_exists_mem_beq]

theorem contains_eq_false_iff {l : List String} {s : String} :
    (l.contains s = false) ↔ s ∉ l := by
  rw [← Bool.not_eq_true]
  exact not_congr contains_iff_mem

theorem retention_of_pairwise_lt {l : List (String × BlockInfo)}
    (hs : l.Pairwise (fun a b => a.2.block_number < b.2.block_number))
    (hk : (l.map Prod.fst).Nodup) :
    retention l = l.drop (l.length - 100) := by
  unfold retention
  have hbl : sortDesc (l.map (fun p => (p.1, p.2.block_number)))
      = (l.map (fun p => (p.1, p.2.block_number))).reverse := by
    refine sortDesc_of_pairwise_lt ?_
    exact (List.pairwise_map).mpr (hs.imp (fun hab => hab))
  simp only [hbl]
  by_cases hlen : 100 < l.length
  · have hc : 100 < (l.map (fun p => (p.1, p.2.block_number))).reverse.length := by
      rw [List.length_reverse, List.length_map]
      exact hlen
    rw [if_pos hc]
    set d := l.length - 100 with hd
    have htd : l = l.take d ++ l.drop d := (List.take_append_drop d l).symm
    have hkeys : (((l.map (fun p => (p.1, p.2.block_number))).reverse.drop 100).map Prod.fst)
        = ((l.take d).map Prod.fst).reverse := by
      have hrev : (l.map (fun p => (p.1, p.2.block_number))).reverse.drop 100
          = ((l.take d).map (fun p => (p.1, p.2.block_number))).reverse := by
        rw [List.map_take, List.reverse_take, List.length_map]
        congr 1
        omega
      rw [hrev, ← List.map_reverse, List.map_map, ← List.map_reverse]
      rfl
    simp only [hkeys]
    have hsplitkeys : (l.map Prod.fst) = (l.take d).map Prod.fst ++ (l.drop d).map Prod.fst := by
      rw [← List.map_append, List.take_append_drop]
    rw [hsplitkeys] at hk
    rcases List.nodup_append.mp hk with ⟨hk1, hk2, hdisj⟩
    generalize hg : ((l.take d).map Prod.fst).reverse = keys
    conv_lhs => rw [htd]
    rw [List.filter_append]
    have hleft : (l.take d).filter (fun p => !(keys.contains p.1)) = [] := by
      rw [List.filter_eq_nil_iff]
      intro p hp
      have hm : p.1 ∈ keys := by
        rw [← hg, List.mem_reverse]
        exact List.mem_map.mpr ⟨p, hp, rfl⟩
      simp [contains_iff_mem, hm]
    have hright : (l.drop d).filter (fun p => !(keys.contains p.1)) = l.drop d := by
      rw [List.filter_eq_self]
      intro p hp
      have hm : p.1 ∉ keys := by
        intro hmem
        rw [← hg, List.mem_reverse] at hmem
        exact absurd (List.mem_map.mpr ⟨p, hp, rfl⟩)
          (fun hq => (List.disjoint_right.mp hdisj) hq hmem)
      simp [contains_iff_mem, hm]
    rw [hleft, hright, List.nil_append]
  · have hc : ¬ 100 < (l.map (fun p => (p.1, p.2.block_number))).reverse.length := by
      rw [List.length_reverse, List.length_map]
      exact hlen
    rw [if_neg hc]
    have h0 : l.length - 100 = 0 := by omega
    rw [h0, List.drop_zero]

theorem retention_sublist (l : List (String × BlockInfo)) : (retention l).Sublist l := by
  unfold retention
  by_cases h : 100 < (sortDesc (l.map (fun p => (p.1, p.2.block_number)))).length
  · rw [if_pos h]
    exact List.filter_sublist l
  · rw [if_neg h]

theorem filter_length_lt_of_mem_take {s : List (String × Nat)} {x : String × Nat} {n : Nat}
    (hs : s.Pairwise (fun a b => b.2 < a.2)) (hx : x ∈ s.take n) :
    (s.filter (fun y => decide (x.2 < y.2))).length < n := by
  induction n generalizing s with
  | zero => simp at hx
  | succ m ih =>
    cases s with
    | nil => simp at hx
    | cons a t =>
      rcases List.pairwise_cons.mp hs with ⟨ha, ht⟩
      rw [List.take_succ_cons] at hx
      rcases List.mem_cons.mp hx with hx | hx
      · subst hx
        have hnil : (x :: t).filter (fun y => decide (x.2 < y.2)) = [] := by
          rw [List.filter_eq_nil_iff]
          intro y hy
          rcases List.mem_cons.mp hy with hy | hy
          · subst hy
            simp
          · have := ha y hy
            simp only [decide_eq_true_eq]
            omega
        rw [hnil]
        exact Nat.succ_pos m
      · have hxt : x ∈ t := List.take_subset m t hx
        have hlt : x.2 < a.2 := ha x hxt
        rw [List.filter_cons]
        simp only [hlt, decide_true_eq_true, decide_eq_true_eq, if_pos hlt, List.length_cons]
        exact Nat.succ_lt_succ (ih ht hx)

theorem le_filter_length_of_mem_drop {s : List (String × Nat)} {x : String × Nat} {n : Nat}
    (hs : s.Pairwise (fun a b => b.2 < a.2)) (hx : x ∈ s.drop n) :
    n ≤ (s.filter (fun y => decide (x.2 < y.2))).length := by
  induction n generalizing s with
  | zero => exact Nat.zero_le _
  | succ m ih =>
    cases s with
    | nil => simp at hx
    | cons a t =>
      rcases List.pairwise_cons.mp hs with ⟨ha, ht⟩
      rw [List.drop_succ_cons] at hx
      have hxt : x ∈ t := List.drop_subset m t hx
      have hlt : x.2 < a.2 := ha x hxt
      rw [List.filter_cons]
      simp only [hlt, if_pos hlt, List.length_cons]
      exact Nat.succ_le_succ (ih ht hx)

theorem retention_length_le {l : List (String × BlockInfo)}
    (hk : (l.map Prod.fst).Nodup) (hbig : 100 < l.length) : (retention l).length ≤ 100 := by
  · unfold retention
    set bl := l.map (fun p => (p.1, p.2.block_number)) with hbl
    set s := sortDesc bl with hsd
    have hslen : s.length = l.length := by
      rw [hsd, sortDesc_length, hbl, List.length_map]
    rw [if_pos (by omega)]
    set kept := l.filter (fun p => !(((s.drop 100).map Prod.fst).contains p.1)) with hkept
    have hsub : ∀ p ∈ kept, (p.1, p.2.block_number) ∈ s.take 100 := by
      intro p hp
      rcases List.mem_filter.mp hp with ⟨hpl, hpk⟩
      have hin : (p.1, p.2.block_number) ∈ s := by
        refine (sortDesc_perm bl).mem_iff.mpr ?_
        exact List.mem_map.mpr ⟨p, hpl, rfl⟩
      rw [← List.take_append_drop 100 s] at hin
      rcases List.mem_append.mp hin with hin | hin
      · exact hin
      · exfalso
        have : p.1 ∈ (s.drop 100).map Prod.fst := List.mem_map.mpr ⟨_, hin, rfl⟩
        rw [← contains_iff_mem] at this
        rw [this] at hpk
        exact Bool.noConfusion hpk
    have hkeys : (kept.map Prod.fst).Nodup := by
      refine List.Sublist.nodup ?_ hk
      exact (List.filter_sublist l).map Prod.fst
    have hnodup : (kept.map (fun p => (p.1, p.2.block_number))).Nodup := by
      refine List.Nodup.of_map Prod.fst ?_
      rw [List.map_map]
      exact hkeys
    have hsubset : (kept.map (fun p => (p.1, p.2.block_number))) ⊆ s.take 100 := by
      intro y hy
      rcases List.mem_map.mp hy with ⟨p, hp, he⟩
      exact he ▸ hsub p hp
    have := (List.subperm_of_subset hnodup hsubset).length_le
    rw [List.length_map] at this
    refine this.trans ?_
    rw [List.length_take]
    exact Nat.min_le_left _ _

theorem retention_mem_iff {l : List (String × BlockInfo)} {p : String × BlockInfo}
    (hk : (l.map Prod.fst).Nodup)
    (hn : (l.map (fun q => q.2.block_number)).Nodup)
    (hlen : 100 < l.length) :
    p ∈ retention l ↔ p ∈ l ∧
      (l.filter (fun q => decide (p.2.block_number < q.2.block_number))).length < 100 := by
  unfold retention
  set bl := l.map (fun p => (p.1, p.2.block_number)) with hbl
  set s := sortDesc bl with hsd
  have hperm : s.Perm bl := sortDesc_perm bl
  have hslen : s.length = l.length := by
    rw [hsd, sortDesc_length, hbl, List.length_map]
  rw [if_pos (by omega)]
  have hsnd : (s.map Prod.snd).Nodup := by
    refine (hperm.map Prod.snd).nodup_iff.mpr ?_
    rw [hbl, List.map_map]
    exact hn
  have hblnodup : bl.Nodup := by
    refine List.Nodup.of_map Prod.snd ?_
    rw [hbl, List.map_map]
    exact hn
  have hsnodup : s.Nodup := hperm.nodup_iff.mpr hblnodup
  have hstrict : s.Pairwise (fun a b => b.2 < a.2) := by
    have h1 : s.Pairwise (fun a b => b.2 ≤ a.2) := sortDesc_sorted bl
    have h2 : s.Pairwise (fun a b => a.2 ≠ b.2) := by
      have h3 : (s.map Prod.snd).Pairwise (fun a b => a ≠ b) := hsnd
      exact (List.pairwise_map).mp h3
    exact h1.imp₂ (fun a b hle hne => Nat.lt_of_le_of_ne hle (fun e => hne e.symm)) h2
  constructor
  · intro hmem
    rcases List.mem_filter.mp hmem with ⟨hpl, hpk⟩
    refine ⟨hpl, ?_⟩
    have hin : (p.1, p.2.block_number) ∈ s :=
      hperm.mem_iff.mpr (List.mem_map.mpr ⟨p, hpl, rfl⟩)
    rw [← List.take_append_drop 100 s] at hin
    rcases List.mem_append.mp hin with hin | hin
    · have hcnt := filter_length_lt_of_mem_take hstrict hin
      dsimp only at hcnt
      have htr : (s.filter (fun y => decide (p.2.block_number < y.2))).length
          = (l.filter (fun q => decide (p.2.block_number < q.2.block_number))).length := by
        rw [(hperm.filter _).length_eq, hbl, List.filter_map, List.length_map]
        rfl
      rw [← htr]
      exact hcnt
    · exfalso
      have : p.1 ∈ (s.drop 100).map Prod.fst := List.mem_map.mpr ⟨_, hin, rfl⟩
      rw [← contains_iff_mem] at this
      rw [this] at hpk
      exact Bool.noConfusion hpk
  · rintro ⟨hpl, hcnt⟩
    refine List.mem_filter.mpr ⟨hpl, ?_⟩
    have hnotdrop : (p.1, p.2.block_number) ∉ s.drop 100 := by
      intro hin
      have hge := le_filter_length_of_mem_drop hstrict hin
      dsimp only at hge
      have htr : (s.filter (fun y => decide (p.2.block_number < y.2))).length
          = (l.filter (fun q => decide (p.2.block_number < q.2.block_number))).length := by
        rw [(hperm.filter _).length_eq, hbl, List.filter_map, List.length_map]
        rfl
      rw [htr] at hge
      omega
    have hnokey : p.1 ∉ (s.drop 100).map Prod.fst := by
      intro hkey
      rcases List.mem_map.mp hkey with ⟨y, hy, hyk⟩
      have hybl : y ∈ bl := hperm.mem_iff.mp (List.drop_subset _ _ hy)
      rcases List.mem_map.mp hybl with ⟨q, hq, hqy⟩
      have : q = p := by
        refine eq_of_mem_keys_nodup hk hq hpl ?_
        rw [← hyk, ← hqy]
      subst this
      rw [← hqy] at hy
      exact hnotdrop hy
    have hfalse : ((s.drop 100).map Prod.fst).contains p.1 = false :=
      contains_eq_false_iff.mpr hnokey
    simp only [hfalse, Bool.not_false]

/-! ### Structural lemmas about the import step -/

theorem blockUpdate_fields (e : BlockImportEv) (nn ni : String) (b : BlockInfo) :
    (blockUpdate e nn ni b).block_number = b.block_number ∧
    (blockUpdate e nn ni b).first_seen = b.first_seen ∧
    (blockUpdate e nn ni b).output = b.output ∧
    (blockUpdate e nn ni b).lowest_prop_time ≤ b.lowest_prop_time ∧
    (blockUpdate e nn ni b).report_count = b.report_count + 1 := by
  unfold blockUpdate
  by_cases h1 : e.propagation_time < b.lowest_prop_time
  · simp [h1, Nat.le_of_lt h1]
  · by_cases h2 : e.propagation_time = b.lowest_prop_time
    · by_cases h3 : b.reporters.any (fun r => r.node_idx == e.node_idx) <;>
        simp [h1, h2, h3]
    · simp [h1, h2]

theorem lookupA_eq_none_iff_keys {α : Type} (k : String) (l : List (String × α)) :
    lookupA k l = none ↔ k ∉ l.map Prod.fst := by
  rw [lookupA_eq_none_iff]
  constructor
  · intro h hm
    rcases List.mem_map.mp hm with ⟨p, hp, he⟩
    exact h p hp he
  · intro h p hp he
    exact h (List.mem_map.mpr ⟨p, hp, he⟩)

theorem updateA_append_last {α : Type} {k : String} {l : List (String × α)} {v : α}
    (f : α → α) (h : lookupA k l = none) :
    updateA k f (l ++ [(k, v)]) = l ++ [(k, f v)] := by
  induction l with
  | nil => simp [updateA]
  | cons hd t ih =>
    obtain ⟨k2, w⟩ := hd
    by_cases hk : k2 = k
    · rw [hk] at h
      simp [lookupA] at h
    · simp only [lookupA, hk, if_false] at h
      simp only [List.cons_append, updateA, hk, if_false, List.cons.injEq, true_and]
      exact ih h

theorem lookupA_append_singleton_ne {α : Type} {h k : String} (l : List (String × α)) (v : α)
    (hne : h ≠ k) : lookupA h (l ++ [(k, v)]) = lookupA h l := by
  cases hv : lookupA h l with
  | some w => exact lookupA_append_of_some _ hv
  | none =>
    rw [lookupA_append_of_none _ hv]
    have hkh : ¬ k = h := fun e => hne e.symm
    simp [lookupA, hkh]

theorem processBlockImport_valid {st : ObserverState} {e : BlockImportEv}
    (hv : ¬(e.block_hash = "" ∨ e.propagation_time = 0)) :
    processBlockImport st e =
      (⟨st.nodes,
          retention ((sweepAll e.now (maxBlock (blocksAfterUpdate st e))
            (blocksAfterUpdate st e)).1)⟩,
        (sweepAll e.now (maxBlock (blocksAfterUpdate st e)) (blocksAfterUpdate st e)).2) := by
  unfold processBlockImport
  rw [if_neg hv]

theorem blocksAfterUpdate_fresh {st : ObserverState} {e : BlockImportEv}
    (hf : lookupA e.block_hash st.blocks = none) :
    blocksAfterUpdate st e = st.blocks ++
      [(e.block_hash, blockUpdate e (nodeNameOf st e.node_idx) (nodeIdOf st e.node_idx)
        (newBlock e))] := by
  unfold blocksAfterUpdate blocksAfterEntry
  rw [hf]
  simp only [Option.isSome_none, Bool.false_eq_true, if_false]
  exact updateA_append_last _ hf

theorem lookupA_blocksAfterUpdate (st : ObserverState) (e : BlockImportEv) (h : String) :
    lookupA h (blocksAfterUpdate st e) =
      if h = e.block_hash then
        some (blockUpdate e (nodeNameOf st e.node_idx) (nodeIdOf st e.node_idx)
          ((lookupA e.block_hash st.blocks).getD (newBlock e)))
      else lookupA h st.blocks := by
  unfold blocksAfterUpdate blocksAfterEntry
  cases hf : lookupA e.block_hash st.blocks with
  | some b =>
    simp only [hf, Option.isSome_some, if_true, Option.getD_some]
    rw [lookupA_updateA]
    by_cases hk : h = e.block_hash
    · rw [if_pos hk, if_pos hk, hf]
      rfl
    · rw [if_neg hk, if_neg hk]
  | none =>
    simp only [hf, Option.isSome_none, Bool.false_eq_true, if_false, Option.getD_none]
    rw [lookupA_updateA]
    by_cases hk : h = e.block_hash
    · rw [if_pos hk, if_pos hk]
      rw [lookupA_append_of_none _ hf, lookupA_singleton]
      rfl
    · rw [if_neg hk, if_neg hk]
      exact lookupA_append_singleton_ne _ _ hk

theorem keys_blocksAfterUpdate (st : ObserverState) (e : BlockImportEv) :
    (blocksAfterUpdate st e).map Prod.fst =
      if (lookupA e.block_hash st.blocks).isSome then st.blocks.map Prod.fst
      else st.blocks.map Prod.fst ++ [e.block_hash] := by
  unfold blocksAfterUpdate blocksAfterEntry
  by_cases hf : (lookupA e.block_hash st.blocks).isSome
  · rw [if_pos hf, if_pos hf, keys_updateA]
  · rw [if_neg hf, if_neg hf, keys_updateA, List.map_append]
    rfl

theorem wf_blocksAfterUpdate {st : ObserverState} (e : BlockImportEv) (hw : WF st) :
    ((blocksAfterUpdate st e).map Prod.fst).Nodup := by
  rw [keys_blocksAfterUpdate]
  by_cases hf : (lookupA e.block_hash st.blocks).isSome
  · rw [if_pos hf]
    exact hw
  · rw [if_neg hf]
    rw [List.nodup_append]
    refine ⟨hw, List.nodup_singleton _, ?_⟩
    intro a ha hb
    rcases List.mem_singleton.mp hb with rfl
    have hnone : lookupA e.block_hash st.blocks = none := by
      cases hl : lookupA e.block_hash st.blocks with
      | some b => rw [hl] at hf; exact absurd rfl hf
      | none => rfl
    exact (lookupA_eq_none_iff_keys _ _).mp hnone ha

theorem lookupA_retention_some {l : List (String × BlockInfo)} {h : String} {v : BlockInfo}
    (hk : (l.map Prod.fst).Nodup) (hm : lookupA h (retention l) = some v) :
    lookupA h l = some v := by
  unfold retention at hm
  by_cases hc : 100 < (sortDesc (l.map (fun p => (p.1, p.2.block_number)))).length
  · rw [if_pos hc] at hm
    exact lookupA_filter_some hk hm
  · rw [if_neg hc] at hm
    exact hm

theorem lookup_after_import {st : ObserverState} {e : BlockImportEv} {h : String}
    {b' : BlockInfo} (hw : WF st) (hv : ¬(e.block_hash = "" ∨ e.propagation_time = 0))
    (hb' : lookupA h (processBlockImport st e).1.blocks = some b') :
    ∃ b1, lookupA h (blocksAfterUpdate st e) = some b1 ∧
      (b' = b1 ∨ b' = { b1 with output := true }) := by
  rw [processBlockImport_valid hv] at hb'
  have hwk : (((sweepAll e.now (maxBlock (blocksAfterUpdate st e))
      (blocksAfterUpdate st e)).1).map Prod.fst).Nodup := by
    rw [keys_sweepAll]
    exact wf_blocksAfterUpdate e hw
  have hs := lookupA_retention_some hwk hb'
  rw [lookupA_sweepAll] at hs
  cases hb1 : lookupA h (blocksAfterUpdate st e) with
  | none => rw [hb1] at hs; exact absurd hs (by simp)
  | some b1 =>
    rw [hb1] at hs
    have hs : (sweepOne e.now (maxBlock (blocksAfterUpdate st e)) h b1).1 = b' :=
      Option.some.inj hs
    refine ⟨b1, rfl, ?_⟩
    rcases sweepOne_fst_cases e.now (maxBlock (blocksAfterUpdate st e)) h b1 with hc | hc
    · exact Or.inl (by rw [← hs, hc])
    · exact Or.inr (by rw [← hs, hc])

theorem processBlockImport_invalid {st : ObserverState} {e : BlockImportEv}
    (hv : e.block_hash = "" ∨ e.propagation_time = 0) :
    processBlockImport st e = (st, []) := by
  unfold processBlockImport
  rw [if_pos hv]

theorem mem_blocksAfterEntry {blocks : List (String × BlockInfo)} {e : BlockImportEv}
    {p : String × BlockInfo} (hp : p ∈ blocksAfterEntry blocks e) :
    p ∈ blocks ∨ p = (e.block_hash, newBlock e) := by
  unfold blocksAfterEntry at hp
  by_cases hf : (lookupA e.block_hash blocks).isSome
  · rw [if_pos hf] at hp
    exact Or.inl hp
  · rw [if_neg hf] at hp
    rcases List.mem_append.mp hp with hp | hp
    · exact Or.inl hp
    · exact Or.inr (List.mem_singleton.mp hp)

theorem mem_first_seen_blocksAfterUpdate {st : ObserverState} {e : BlockImportEv}
    {p : String × BlockInfo} (hp : p ∈ blocksAfterUpdate st e) :
    (∃ q ∈ st.blocks, p.2.first_seen = q.2.first_seen) ∨ p.2.first_seen = e.now := by
  unfold blocksAfterUpdate at hp
  rcases mem_updateA hp with hp | ⟨q, hq, he⟩
  · rcases mem_blocksAfterEntry hp with hp | hp
    · exact Or.inl ⟨p, hp, rfl⟩
    · refine Or.inr ?_
      rw [hp]
      rfl
  · rcases mem_blocksAfterEntry hq with hq | hq
    · refine Or.inl ⟨q, hq, ?_⟩
      rw [he]
      exact (blockUpdate_fields e _ _ q.2).2.1
    · refine Or.inr ?_
      rw [he, (blockUpdate_fields e _ _ q.2).2.1, hq]
      rfl

theorem wf_step {st : ObserverState} (ev : Event) (hw : WF st) : WF (step st ev).1 := by
  cases ev with
  | nodeAnnounce o n i => exact hw
  | blockImport ni bn h p now =>
    show WF (processBlockImport st ⟨ni, bn, h, p, now⟩).1
    by_cases hv : (⟨ni, bn, h, p, now⟩ : BlockImportEv).block_hash = ""
        ∨ (⟨ni, bn, h, p, now⟩ : BlockImportEv).propagation_time = 0
    · rw [processBlockImport_invalid hv]
      exact hw
    · rw [processBlockImport_valid hv]
      show ((retention _).map Prod.fst).Nodup
      refine List.Sublist.nodup ((retention_sublist _).map Prod.fst) ?_
      rw [keys_sweepAll]
      exact wf_blocksAfterUpdate _ hw

theorem wf_runFrom (evs : List Event) (st : ObserverState) (hw : WF st) :
    WF (runEvents st evs).1 := by
  induction evs generalizing st with
  | nil => exact hw
  | cons e t ih => exact ih (step st e).1 (wf_step e hw)

theorem wf_run (evs : List Event) : WF (runEvents initState evs).1 :=
  wf_runFrom evs initState (by simp [WF, initState])

theorem runEvents_append (st : ObserverState) (l1 l2 : List Event) :
    runEvents st (l1 ++ l2) =
      ((runEvents (runEvents st l1).1 l2).1,
        (runEvents st l1).2 ++ (runEvents (runEvents st l1).1 l2).2) := by
  induction l1 generalizing st with
  | nil => simp [runEvents]
  | cons e t ih =>
    simp only [List.cons_append, runEvents, List.append_eq]
    rw [ih]
    simp [List.append_assoc]

theorem runEvents_singleton_fst (st : ObserverState) (e : Event) :
    (runEvents st [e]).1 = (step st e).1 := rfl

theorem runEvents_fst_range {g : Nat → ObserverState} {f : Nat → Event} (n : Nat)
    (hstep : ∀ k, k < n → (step (g k) (f k)).1 = g (k + 1)) :
    (runEvents (g 0) ((List.range n).map f)).1 = g n := by
  induction n with
  | zero => rfl
  | succ m ih =>
    rw [List.range_succ, List.map_append, runEvents_append]
    have h1 : (runEvents (g 0) ((List.range m).map f)).1 = g m :=
      ih (fun k hk => hstep k (hk.trans (Nat.lt_succ_self m)))
    rw [h1]
    show (runEvents (g m) [f m]).1 = g (m + 1)
    rw [runEvents_singleton_fst]
    exact hstep m (Nat.lt_succ_self m)

theorem length_blocksAfterUpdate (st : ObserverState) (e : BlockImportEv) :
    (blocksAfterUpdate st e).length ≤ st.blocks.length + 1 := by
  unfold blocksAfterUpdate blocksAfterEntry
  rw [length_updateA]
  by_cases hf : (lookupA e.block_hash st.blocks).isSome
  · rw [if_pos hf]
    exact Nat.le_succ _
  · rw [if_neg hf, List.length_append]
    exact Nat.le_refl _

theorem step_blocks_length_le {st : ObserverState} (ev : Event) (hw : WF st)
    (hlen : st.blocks.length ≤ 100) : (step st ev).1.blocks.length ≤ 100 := by
  cases ev with
  | nodeAnnounce o n i => exact hlen
  | blockImport ni bn h p now =>
    show (processBlockImport st ⟨ni, bn, h, p, now⟩).1.blocks.length ≤ 100
    by_cases hv : (⟨ni, bn, h, p, now⟩ : BlockImportEv).block_hash = ""
        ∨ (⟨ni, bn, h, p, now⟩ : BlockImportEv).propagation_time = 0
    · rw [processBlockImport_invalid hv]
      exact hlen
    · rw [processBlockImport_valid hv]
      show (retention _).length ≤ 100
      set S := (sweepAll now (maxBlock (blocksAfterUpdate st ⟨ni, bn, h, p, now⟩))
        (blocksAfterUpdate st ⟨ni, bn, h, p, now⟩)).1 with hS
      have hSlen : S.length ≤ 101 := by
        rw [hS, sweepAll_fst, List.length_map]
        exact (length_blocksAfterUpdate st _).trans (Nat.succ_le_succ hlen)
      by_cases hc : 100 < S.length
      · refine retention_length_le ?_ hc
        rw [hS, keys_sweepAll]
        exact wf_blocksAfterUpdate _ hw
      · rw [retention_of_length_le (Nat.not_lt.mp hc)]
        exact Nat.not_lt.mp hc

theorem run_blocks_length_le (evs : List Event) :
    (runEvents initState evs).1.blocks.length ≤ 100 := by
  have hgen : ∀ (l : List Event) (st : ObserverState), WF st → st.blocks.length ≤ 100 →
      (runEvents st l).1.blocks.length ≤ 100 := by
    intro l
    induction l with
    | nil => intro st _ h; exact h
    | cons e t ih =>
      intro st hw hlen
      exact ih (step st e).1 (wf_step e hw) (step_blocks_length_le e hw hlen)
  exact hgen evs initState (by simp [WF, initState]) (by simp [initState])

theorem rows_import_ne {st : ObserverState} {e : BlockImportEv} {h : String} {b : BlockInfo}
    (hw : WF st) (hb : lookupA h st.blocks = some b) (hout : b.output = true) :
    ∀ r ∈ (processBlockImport st e).2, r.block_hash ≠ h := by
  intro r hr he
  by_cases hv : e.block_hash = "" ∨ e.propagation_time = 0
  · rw [processBlockImport_invalid hv] at hr
    exact absurd hr (List.not_mem_nil r)
  · rw [processBlockImport_valid hv] at hr
    rcases mem_sweepAll_rows hr with ⟨p, hp, hpk, hpout⟩
    have hwk := wf_blocksAfterUpdate e hw
    have hlk := lookupA_of_mem_wf hwk hp
    rw [hpk, he] at hlk
    rw [lookupA_blocksAfterUpdate] at hlk
    by_cases hk : h = e.block_hash
    · rw [if_pos hk] at hlk
      have hb2 : (lookupA e.block_hash st.blocks).getD (newBlock e) = b := by
        rw [← hk, hb]
        rfl
      rw [hb2] at hlk
      have : p.2.output = b.output := by
        rw [← Option.some.inj hlk]
        exact (blockUpdate_fields e _ _ b).2.2.1
      rw [hpout, hout] at this
      exact Bool.noConfusion this
    · rw [if_neg hk, hb] at hlk
      have : p.2.output = b.output := by rw [← Option.some.inj hlk]
      rw [hpout, hout] at this
      exact Bool.noConfusion this

/-! ### Scenario D: 150 fresh imports at strictly increasing heights -/

theorem hD_injective : Function.Injective hD := by
  intro a b h
  have h2 : List.replicate a 'h' = List.replicate b 'h' := congrArg String.data h
  have h3 := congrArg List.length h2
  simpa using h3

theorem hD_ne_empty {j : Nat} (hj : 1 ≤ j) : hD j ≠ "" := by
  intro h
  have h2 : List.replicate j 'h' = [] := congrArg String.data h
  have h3 := congrArg List.length h2
  simp at h3
  omega

theorem hD_ne_0xAA (j : Nat) : hD j ≠ "0xAA" := by
  intro h
  have h2 : List.replicate j 'h' = ['0', 'x', 'A', 'A'] := congrArg String.data h
  have h0 : '0' ∈ List.replicate j 'h' := by
    rw [h2]
    simp
  have h1 := List.eq_of_mem_replicate h0
  exact absurd h1 (by decide)

theorem fullD_pairwise (k : Nat) :
    (fullD k).Pairwise (fun a b => a.2.block_number < b.2.block_number) := by
  unfold fullD
  refine (List.pairwise_map).mpr ?_
  refine (List.pairwise_lt_range k).imp ?_
  intro a b h
  simpa [entD] using Nat.succ_lt_succ h

theorem fullD_keys_nodup (k : Nat) : ((fullD k).map Prod.fst).Nodup := by
  unfold fullD
  rw [List.map_map]
  refine List.Nodup.map ?_ (List.nodup_range k)
  intro a b h
  simp only [Function.comp, entD] at h
  have := hD_injective h
  omega

theorem length_fullD (k : Nat) : (fullD k).length = k := by
  unfold fullD
  rw [List.length_map, List.length_range]

theorem maxBlock_fullD_drop_le (k d : Nat) : maxBlock ((fullD k).drop d) ≤ k := by
  refine maxBlock_le ?_
  intro p hp
  have hp2 : p ∈ fullD k := List.drop_subset d _ hp
  unfold fullD at hp2
  rcases List.mem_map.mp hp2 with ⟨i, hi, he⟩
  rw [← he]
  show i + 1 ≤ k
  exact List.mem_range.mp hi

theorem sweep_entD (k j : Nat) :
    ((entD k j).1, (sweepOne 0 (k + 1) (entD k j).1 (entD k j).2).1) = entD (k + 1) j := by
  unfold entD sweepOne
  by_cases h1 : j + 1 < k
  · have h2 : j + 1 < k + 1 := by omega
    simp [h1, h2]
  · by_cases h3 : j < k
    · have h2 : j + 1 < k + 1 := by omega
      simp [h1, h2, h3]
    · have h2 : ¬ (j + 1 < k + 1) := by omega
      simp [h1, h2, h3]

theorem stD_nodes (k : Nat) : (stD k).nodes = [] := rfl

theorem stepD (k : Nat) : (step (stD k) (evD k)).1 = stD (k + 1) := by
  show (processBlockImport (stD k) ⟨1, k + 1, hD (k + 1), 5, 0⟩).1 = stD (k + 1)
  set e : BlockImportEv := ⟨1, k + 1, hD (k + 1), 5, 0⟩ with he
  have hv : ¬(e.block_hash = "" ∨ e.propagation_time = 0) := by
    rw [not_or]
    exact ⟨hD_ne_empty (by omega), fun h0 => (by decide : ¬ (5 : Nat) = 0) (h0 : (5 : Nat) = 0)⟩
  have hf : lookupA e.block_hash (stD k).blocks = none := by
    rw [lookupA_eq_none_iff]
    intro p hp
    have hp2 : p ∈ fullD k := List.drop_subset _ _ hp
    rcases List.mem_map.mp hp2 with ⟨i, hi, hpe⟩
    rw [← hpe]
    show hD (i + 1) ≠ hD (k + 1)
    intro hc
    have h4 := hD_injective hc
    have h5 := List.mem_range.mp hi
    omega
  have hB : blockUpdate e (nodeNameOf (stD k) e.node_idx) (nodeIdOf (stD k) e.node_idx)
      (newBlock e) = ⟨k + 1, 5, [rep1], 0, 1, false⟩ := by
    have hnn : nodeNameOf (stD k) e.node_idx = "unknown_node_1" := by
      have h1 : nodeNameOf initState 1 = "unknown_node_1" := by decide
      exact h1
    have hni : nodeIdOf (stD k) e.node_idx = "unknown_id" := by
      have h1 : nodeIdOf initState 1 = "unknown_id" := by decide
      exact h1
    rw [hnn, hni]
    unfold blockUpdate newBlock
    norm_num [rep1]
  rw [processBlockImport_valid hv]
  have hupd : blocksAfterUpdate (stD k) e
      = (fullD k).drop (k - 100) ++ [(hD (k + 1), ⟨k + 1, 5, [rep1], 0, 1, false⟩)] := by
    rw [blocksAfterUpdate_fresh hf, hB]
    rfl
  have hmx : maxBlock (blocksAfterUpdate (stD k) e) = k + 1 := by
    rw [hupd, maxBlock_append]
    have h1 : maxBlock ((fullD k).drop (k - 100)) ≤ k := maxBlock_fullD_drop_le k _
    have h2 : maxBlock [(hD (k + 1), (⟨k + 1, 5, [rep1], 0, 1, false⟩ : BlockInfo))]
        = k + 1 := by
      simp [maxBlock]
    rw [h2]
    exact Nat.max_eq_right (h1.trans (Nat.le_succ k))
  have hS : (sweepAll e.now (maxBlock (blocksAfterUpdate (stD k) e))
      (blocksAfterUpdate (stD k) e)).1 = (fullD (k + 1)).drop (k - 100) := by
    rw [hmx, hupd]
    show (sweepAll 0 (k + 1) _).1 = _
    rw [sweepAll_fst, List.map_append]
    have hnew : [(hD (k + 1), (⟨k + 1, 5, [rep1], 0, 1, false⟩ : BlockInfo))].map
          (fun p => (p.1, (sweepOne 0 (k + 1) p.1 p.2).1))
        = [entD (k + 1) (k + 1)] := by
      have hno : ¬ (k + 1 < k + 1 - 1) := by omega
      have hfl : ¬ (k + 1 + 1 < k + 1) := by omega
      unfold sweepOne entD
      simp [hno, hfl]
    have hmap : ((fullD k).drop (k - 100)).map
          (fun p => (p.1, (sweepOne 0 (k + 1) p.1 p.2).1))
        = ((List.range k).map (fun i => entD (k + 1) (i + 1))).drop (k - 100) := by
      rw [List.map_drop]
      congr 1
      unfold fullD
      rw [List.map_map]
      refine List.map_congr_left ?_
      intro i _
      show ((entD k (i + 1)).1, (sweepOne 0 (k + 1) (entD k (i + 1)).1 (entD k (i + 1)).2).1)
        = entD (k + 1) (i + 1)
      exact sweep_entD k (i + 1)
    rw [hnew, hmap]
    have hda : ((List.range k).map (fun i => entD (k + 1) (i + 1))).drop (k - 100)
          ++ [entD (k + 1) (k + 1)]
        = (((List.range k).map (fun i => entD (k + 1) (i + 1)))
          ++ [entD (k + 1) (k + 1)]).drop (k - 100) := by
      rw [List.drop_append_eq_append_drop]
      have hz : k - 100 - ((List.range k).map (fun i => entD (k + 1) (i + 1))).length = 0 := by
        rw [List.length_map, List.length_range]
        omega
      rw [hz, List.drop_zero]
    rw [hda]
    congr 1
    unfold fullD
    rw [List.range_succ, List.map_append]
    rfl
  have hpw : ((fullD (k + 1)).drop (k - 100)).Pairwise
      (fun a b => a.2.block_number < b.2.block_number) :=
    List.Pairwise.sublist (List.drop_sublist _ _) (fullD_pairwise (k + 1))
  have hkn : (((fullD (k + 1)).drop (k - 100)).map Prod.fst).Nodup :=
    List.Sublist.nodup ((List.drop_sublist _ _).map Prod.fst) (fullD_keys_nodup (k + 1))
  dsimp only
  rw [hS, retention_of_pairwise_lt hpw hkn, List.length_drop, length_fullD, List.drop_drop]
  have harith : (k - 100) + ((k + 1) - (k - 100) - 100) = (k + 1) - 100 := by omega
  rw [harith]
  rfl

theorem runD : (runEvents initState evsD).1 = stD 150 := by
  have h0 : initState = stD 0 := rfl
  rw [h0]
  show (runEvents (stD 0) ((List.range 150).map evD)).1 = stD 150
  exact runEvents_fst_range 150 (fun k _ => stepD k)

theorem stD_150_blocks : (stD 150).blocks = (List.range 100).map (fun i => entD 150 (51 + i)) := by
  show (fullD 150).drop 50 = _
  unfold fullD
  rw [show (150 : Nat) = 50 + 100 from rfl, List.range_add, List.map_append,
    List.drop_append_eq_append_drop]
  have h1 : (List.drop 50 ((List.range 50).map (fun i => entD (50 + 100) (i + 1)))) = [] := by
    rw [List.drop_eq_nil_iff]
    rw [List.length_map, List.length_range]
  have h2 : 50 - ((List.range 50).map (fun i => entD (50 + 100) (i + 1))).length = 0 := by
    rw [List.length_map, List.length_range]
  rw [h1, h2, List.drop_zero, List.nil_append, List.map_map]
  refine List.map_congr_left ?_
  intro i _
  show entD (50 + 100) (50 + i + 1) = entD 150 (51 + i)
  congr 1
  omega

/-! ### The finalize-evict-resurrect scenario -/

theorem entC4_height (n i : Nat) : (entC4 n i).2.block_number = i + 1 := by
  unfold entC4
  by_cases h : i = 0
  · subst h
    rfl
  · simp [h]

theorem entC4_key_eq {n a b : Nat} (h : (entC4 n a).1 = (entC4 n b).1) : a = b := by
  by_cases ha : a = 0 <;> by_cases hb : b = 0
  · rw [ha, hb]
  · exfalso
    rw [ha] at h
    simp only [entC4, if_true, hb, if_false] at h
    exact hD_ne_0xAA (b + 1) h.symm
  · exfalso
    rw [hb] at h
    simp only [entC4, if_true, ha, if_false] at h
    exact hD_ne_0xAA (a + 1) h
  · simp only [entC4, ha, hb, if_false] at h
    have := hD_injective h
    omega

theorem fullC4_pairwise (n : Nat) :
    ((List.range (n + 1)).map (entC4 n)).Pairwise
      (fun a b => a.2.block_number < b.2.block_number) := by
  refine (List.pairwise_map).mpr ?_
  refine (List.pairwise_lt_range (n + 1)).imp ?_
  intro a b h
  rw [entC4_height, entC4_height]
  omega

theorem fullC4_keys_nodup (n : Nat) :
    (((List.range (n + 1)).map (entC4 n)).map Prod.fst).Nodup := by
  rw [List.map_map]
  refine List.Nodup.map ?_ (List.nodup_range (n + 1))
  intro a b h
  exact entC4_key_eq h

theorem maxBlock_fullC4_drop_le (n d : Nat) :
    maxBlock (((List.range (n + 1)).map (entC4 n)).drop d) ≤ n + 1 := by
  refine maxBlock_le ?_
  intro p hp
  have hp2 := List.drop_subset d _ hp
  rcases List.mem_map.mp hp2 with ⟨i, hi, he⟩
  rw [← he, entC4_height]
  have := List.mem_range.mp hi
  omega

theorem sweep_entC4 (n i : Nat) :
    ((entC4 n i).1, (sweepOne 0 (n + 2) (entC4 n i).1 (entC4 n i).2).1) = entC4 (n + 1) i := by
  by_cases h0 : i = 0
  · subst h0
    have hout : ((entC4 n 0).2).output = true := rfl
    rw [sweepOne_of_output_true hout]
    rfl
  · unfold entC4 sweepOne
    simp only [h0, if_false]
    by_cases h1 : i + 1 < n
    · have h2 : i + 1 < n + 1 := by omega
      simp [h1, h2]
    · by_cases h3 : i + 1 < n + 1
      · simp [h1, h3]
      · simp [h1, h3]

theorem stC4_nodes (n : Nat) : (stC4 n).nodes = [] := rfl

theorem stepC4 (n : Nat) : (step (stC4 n) (evC4 n)).1 = stC4 (n + 1) := by
  show (processBlockImport (stC4 n) ⟨1, n + 2, hD (n + 2), 5, 0⟩).1 = stC4 (n + 1)
  set e : BlockImportEv := ⟨1, n + 2, hD (n + 2), 5, 0⟩ with he
  have hv : ¬(e.block_hash = "" ∨ e.propagation_time = 0) := by
    rw [not_or]
    exact ⟨hD_ne_empty (by omega), fun h0 => (by decide : ¬ (5 : Nat) = 0) (h0 : (5 : Nat) = 0)⟩
  have hf : lookupA e.block_hash (stC4 n).blocks = none := by
    rw [lookupA_eq_none_iff]
    intro p hp
    have hp2 := List.drop_subset _ _ hp
    rcases List.mem_map.mp hp2 with ⟨i, hi, hpe⟩
    rw [← hpe]
    show (entC4 n i).1 ≠ hD (n + 2)
    unfold entC4
    by_cases h0 : i = 0
    · simp only [h0, if_true]
      exact fun hc => hD_ne_0xAA (n + 2) hc.symm
    · simp only [h0, if_false]
      intro hc
      have h4 := hD_injective hc
      have h5 := List.mem_range.mp hi
      omega
  have hB : blockUpdate e (nodeNameOf (stC4 n) e.node_idx) (nodeIdOf (stC4 n) e.node_idx)
      (newBlock e) = ⟨n + 2, 5, [rep1], 0, 1, false⟩ := by
    have hnn : nodeNameOf (stC4 n) e.node_idx = "unknown_node_1" := by
      have h1 : nodeNameOf initState 1 = "unknown_node_1" := by decide
      exact h1
    have hni : nodeIdOf (stC4 n) e.node_idx = "unknown_id" := by
      have h1 : nodeIdOf initState 1 = "unknown_id" := by decide
      exact h1
    rw [hnn, hni]
    unfold blockUpdate newBlock
    norm_num [rep1]
  rw [processBlockImport_valid hv]
  have hupd : blocksAfterUpdate (stC4 n) e
      = ((List.range (n + 1)).map (entC4 n)).drop (n + 1 - 100)
        ++ [(hD (n + 2), ⟨n + 2, 5, [rep1], 0, 1, false⟩)] := by
    rw [blocksAfterUpdate_fresh hf, hB]
    rfl
  have hmx : maxBlock (blocksAfterUpdate (stC4 n) e) = n + 2 := by
    rw [hupd, maxBlock_append]
    have h1 := maxBlock_fullC4_drop_le n (n + 1 - 100)
    have h2 : maxBlock [(hD (n + 2), (⟨n + 2, 5, [rep1], 0, 1, false⟩ : BlockInfo))]
        = n + 2 := by
      simp [maxBlock]
    rw [h2]
    exact Nat.max_eq_right (h1.trans (Nat.le_succ _))
  have hS : (sweepAll e.now (maxBlock (blocksAfterUpdate (stC4 n) e))
      (blocksAfterUpdate (stC4 n) e)).1
      = ((List.range (n + 2)).map (entC4 (n + 1))).drop (n + 1 - 100) := by
    rw [hmx, hupd]
    show (sweepAll 0 (n + 2) _).1 = _
    rw [sweepAll_fst, List.map_append]
    have hnew : [(hD (n + 2), (⟨n + 2, 5, [rep1], 0, 1, false⟩ : BlockInfo))].map
          (fun p => (p.1, (sweepOne 0 (n + 2) p.1 p.2).1))
        = [entC4 (n + 1) (n + 1)] := by
      have hno : ¬ (n + 2 < n + 2 - 1) := by omega
      have hfl : ¬ (n + 1 + 1 < n + 1) := by omega
      unfold sweepOne entC4
      have hz : ¬ (n + 1 = 0) := by omega
      simp [hno, hfl, hz]
    have hmap : (((List.range (n + 1)).map (entC4 n)).drop (n + 1 - 100)).map
          (fun p => (p.1, (sweepOne 0 (n + 2) p.1 p.2).1))
        = ((List.range (n + 1)).map (entC4 (n + 1))).drop (n + 1 - 100) := by
      rw [List.map_drop]
      congr 1
      rw [List.map_map]
      refine List.map_congr_left ?_
      intro i _
      show ((entC4 n i).1, (sweepOne 0 (n + 2) (entC4 n i).1 (entC4 n i).2).1)
        = entC4 (n + 1) i
      exact sweep_entC4 n i
    rw [hnew, hmap]
    have hda : ((List.range (n + 1)).map (entC4 (n + 1))).drop (n + 1 - 100)
          ++ [entC4 (n + 1) (n + 1)]
        = (((List.range (n + 1)).map (entC4 (n + 1))) ++ [entC4 (n + 1) (n + 1)]).drop
            (n + 1 - 100) := by
      rw [List.drop_append_eq_append_drop]
      have hz : n + 1 - 100 - ((List.range (n + 1)).map (entC4 (n + 1))).length = 0 := by
        rw [List.length_map, List.length_range]
        omega
      rw [hz, List.drop_zero]
    rw [hda]
    congr 1
    conv_rhs => rw [List.range_succ, List.map_append]
    rfl
  have hpw : ((((List.range (n + 2)).map (entC4 (n + 1)))).drop (n + 1 - 100)).Pairwise
      (fun a b => a.2.block_number < b.2.block_number) :=
    List.Pairwise.sublist (List.drop_sublist _ _) (fullC4_pairwise (n + 1))
  have hkn : (((((List.range (n + 2)).map (entC4 (n + 1)))).drop (n + 1 - 100)).map
      Prod.fst).Nodup :=
    List.Sublist.nodup ((List.drop_sublist _ _).map Prod.fst) (fullC4_keys_nodup (n + 1))
  dsimp only
  rw [hS, retention_of_pairwise_lt hpw hkn, List.length_drop, List.length_map,
    List.length_range, List.drop_drop]
  have harith : (n + 1 - 100) + ((n + 2) - (n + 1 - 100) - 100) = (n + 2) - 100 := by omega
  rw [harith]
  rfl

theorem runB : (runEvents (stC4 0) evsB).1 = stC4 100 := by
  show (runEvents (stC4 0) ((List.range 100).map evC4)).1 = stC4 100
  exact runEvents_fst_range 100 (fun k _ => stepC4 k)

/-! ### Clock-safety lemmas (underflow precondition of the sweep) -/

theorem first_seen_step {st : ObserverState} {ev : Event} {t : Nat}
    (hb : ∀ p ∈ st.blocks, p.2.first_seen ≤ t) (he : eventTime ev ≤ t) :
    ∀ p ∈ (step st ev).1.blocks, p.2.first_seen ≤ t := by
  cases ev with
  | nodeAnnounce o n i => exact hb
  | blockImport ni bn h pr now =>
    intro p hp
    have hp2 : p ∈ (processBlockImport st ⟨ni, bn, h, pr, now⟩).1.blocks := hp
    by_cases hv : (⟨ni, bn, h, pr, now⟩ : BlockImportEv).block_hash = ""
        ∨ (⟨ni, bn, h, pr, now⟩ : BlockImportEv).propagation_time = 0
    · rw [processBlockImport_invalid hv] at hp2
      exact hb p hp2
    · rw [processBlockImport_valid hv] at hp2
      have hp3 := (retention_sublist _).subset hp2
      rw [sweepAll_fst] at hp3
      rcases List.mem_map.mp hp3 with ⟨q, hq, hqe⟩
      have hfs : p.2.first_seen = q.2.first_seen := by
        rw [← hqe]
        exact (sweepOne_fst_fields _ _ _ _).2.2.2.1
      rw [hfs]
      rcases mem_first_seen_blocksAfterUpdate hq with ⟨w, hw2, hwe⟩ | hnew
      · rw [hwe]
        exact hb w hw2
      · rw [hnew]
        exact he

theorem first_seen_runFrom {t : Nat} :
    ∀ (evs : List Event) (st : ObserverState), (∀ e ∈ evs, eventTime e ≤ t) →
      (∀ p ∈ st.blocks, p.2.first_seen ≤ t) →
      ∀ p ∈ (runEvents st evs).1.blocks, p.2.first_seen ≤ t := by
  intro evs
  induction evs with
  | nil => intro st _ hb; exact hb
  | cons e l ih =>
    intro st hev hb
    exact ih (step st e).1 (fun e2 he2 => hev e2 (List.mem_cons_of_mem _ he2))
      (first_seen_step hb (hev e (List.mem_cons_self _ _)))

/-! ### Reporter-set history lemmas -/

theorem reports_append (l1 l2 : List Event) (h : String) :
    reports (l1 ++ l2) h = reports l1 h ++ reports l2 h :=
  List.filterMap_append _ _ _

theorem blockUpdate_eq_lower {e : BlockImportEv} {b : BlockInfo} (nn ni : String)
    (h1 : e.propagation_time < b.lowest_prop_time) :
    blockUpdate e nn ni b = ⟨b.block_number, e.propagation_time,
      [⟨e.node_idx, nn, ni, e.now⟩], b.first_seen, b.report_count + 1, b.output⟩ := by
  unfold blockUpdate
  dsimp only
  rw [if_pos h1]

theorem blockUpdate_eq_dup {e : BlockImportEv} {b : BlockInfo} (nn ni : String)
    (h1 : ¬ e.propagation_time < b.lowest_prop_time)
    (h2 : e.propagation_time = b.lowest_prop_time)
    (h3 : b.reporters.any (fun x => x.node_idx == e.node_idx) = true) :
    blockUpdate e nn ni b = ⟨b.block_number, b.lowest_prop_time, b.reporters,
      b.first_seen, b.report_count + 1, b.output⟩ := by
  unfold blockUpdate
  dsimp only
  rw [if_neg h1, if_pos h2, if_pos h3]

theorem blockUpdate_eq_push {e : BlockImportEv} {b : BlockInfo} (nn ni : String)
    (h1 : ¬ e.propagation_time < b.lowest_prop_time)
    (h2 : e.propagation_time = b.lowest_prop_time)
    (h3 : ¬ b.reporters.any (fun x => x.node_idx == e.node_idx) = true) :
    blockUpdate e nn ni b = ⟨b.block_number, b.lowest_prop_time,
      b.reporters ++ [⟨e.node_idx, nn, ni, e.now⟩],
      b.first_seen, b.report_count + 1, b.output⟩ := by
  unfold blockUpdate
  dsimp only
  rw [if_neg h1, if_pos h2, if_neg h3]

theorem blockUpdate_eq_skip {e : BlockImportEv} {b : BlockInfo} (nn ni : String)
    (h1 : ¬ e.propagation_time < b.lowest_prop_time)
    (h2 : ¬ e.propagation_time = b.lowest_prop_time) :
    blockUpdate e nn ni b = ⟨b.block_number, b.lowest_prop_time, b.reporters,
      b.first_seen, b.report_count + 1, b.output⟩ := by
  unfold blockUpdate
  dsimp only
  rw [if_neg h1, if_neg h2]

theorem blockUpdate_reporters_mem {e : BlockImportEv} {nn ni : String} {b : BlockInfo}
    {r : BlockReporter} (hr : r ∈ (blockUpdate e nn ni b).reporters) :
    (r ∈ b.reporters ∧ (blockUpdate e nn ni b).lowest_prop_time = b.lowest_prop_time)
    ∨ (r.node_idx = e.node_idx
        ∧ (blockUpdate e nn ni b).lowest_prop_time = e.propagation_time) := by
  by_cases h1 : e.propagation_time < b.lowest_prop_time
  · rw [blockUpdate_eq_lower nn ni h1] at hr ⊢
    rcases List.mem_singleton.mp hr with rfl
    exact Or.inr ⟨rfl, rfl⟩
  · by_cases h2 : e.propagation_time = b.lowest_prop_time
    · by_cases h3 : b.reporters.any (fun x => x.node_idx == e.node_idx) = true
      · rw [blockUpdate_eq_dup nn ni h1 h2 h3] at hr ⊢
        exact Or.inl ⟨hr, rfl⟩
      · rw [blockUpdate_eq_push nn ni h1 h2 h3] at hr ⊢
        rcases List.mem_append.mp hr with hr | hr
        · exact Or.inl ⟨hr, rfl⟩
        · rcases List.mem_singleton.mp hr with rfl
          exact Or.inr ⟨rfl, h2.symm⟩
    · rw [blockUpdate_eq_skip nn ni h1 h2] at hr ⊢
      exact Or.inl ⟨hr, rfl⟩

theorem reports_single_mem {ni bn pr now : Nat} {bh h : String} (hk : bh = h) :
    (ni, pr) ∈ reports [Event.blockImport ni bn bh pr now] h := by
  unfold reports
  simp [hk]

theorem c5_inv_step {st : ObserverState} {ev : Event} {R : String → List (Nat × Nat)}
    (hw : WF st)
    (hinv : ∀ h b r, lookupA h st.blocks = some b → r ∈ b.reporters →
      (r.node_idx, b.lowest_prop_time) ∈ R h) :
    ∀ h b r, lookupA h (step st ev).1.blocks = some b → r ∈ b.reporters →
      (r.node_idx, b.lowest_prop_time) ∈ R h ++ reports [ev] h := by
  intro h b r hb hr
  cases ev with
  | nodeAnnounce o nm i =>
    exact List.mem_append_left _ (hinv h b r hb hr)
  | blockImport ni bn bh pr now =>
    by_cases hv : (⟨ni, bn, bh, pr, now⟩ : BlockImportEv).block_hash = ""
        ∨ (⟨ni, bn, bh, pr, now⟩ : BlockImportEv).propagation_time = 0
    · have hst : (step st (.blockImport ni bn bh pr now)).1 = st := by
        show (processBlockImport st ⟨ni, bn, bh, pr, now⟩).1 = st
        rw [processBlockImport_invalid hv]
      rw [hst] at hb
      exact List.mem_append_left _ (hinv h b r hb hr)
    · have hb2 : lookupA h (processBlockImport st ⟨ni, bn, bh, pr, now⟩).1.blocks = some b := hb
      rcases lookup_after_import hw hv hb2 with ⟨b1, hb1, hbor⟩
      have hrep : b.reporters = b1.reporters ∧ b.lowest_prop_time = b1.lowest_prop_time := by
        rcases hbor with rfl | rfl
        · exact ⟨rfl, rfl⟩
        · exact ⟨rfl, rfl⟩
      rw [lookupA_blocksAfterUpdate] at hb1
      dsimp only at hb1
      by_cases hk : h = bh
      · rw [if_pos hk] at hb1
        have hb1e : blockUpdate ⟨ni, bn, bh, pr, now⟩ (nodeNameOf st ni) (nodeIdOf st ni)
            ((lookupA bh st.blocks).getD (newBlock ⟨ni, bn, bh, pr, now⟩)) = b1 :=
          Option.some.inj hb1
        have hr1 : r ∈ (blockUpdate ⟨ni, bn, bh, pr, now⟩ (nodeNameOf st ni) (nodeIdOf st ni)
            ((lookupA bh st.blocks).getD (newBlock ⟨ni, bn, bh, pr, now⟩))).reporters := by
          rw [hb1e]
          exact hrep.1 ▸ hr
        rcases blockUpdate_reporters_mem hr1 with ⟨hrold, hlow⟩ | ⟨hrn, hlow⟩
        · rw [hb1e] at hlow
          cases hlk : lookupA bh st.blocks with
          | none =>
            rw [hlk] at hrold
            exact absurd hrold (List.not_mem_nil r)
          | some b0 =>
            rw [hlk] at hrold hlow
            simp only [Option.getD_some] at hrold hlow
            have hmem := hinv bh b0 r hlk hrold
            refine List.mem_append_left _ ?_
            rw [hk, hrep.2, hlow]
            exact hmem
        · refine List.mem_append_right _ ?_
          rw [hb1e] at hlow
          rw [hrep.2, hlow, hrn]
          exact reports_single_mem hk.symm
      · rw [if_neg hk] at hb1
        have hmem := hinv h b1 r hb1 (hrep.1 ▸ hr)
        refine List.mem_append_left _ ?_
        rw [hrep.2]
        exact hmem

theorem c5_inv_runFrom :
    ∀ (evs : List Event) (st : ObserverState) (R : String → List (Nat × Nat)), WF st →
      (∀ h b r, lookupA h st.blocks = some b → r ∈ b.reporters →
        (r.node_idx, b.lowest_prop_time) ∈ R h) →
      ∀ h b r, lookupA h (runEvents st evs).1.blocks = some b → r ∈ b.reporters →
        (r.node_idx, b.lowest_prop_time) ∈ R h ++ reports evs h := by
  intro evs
  induction evs with
  | nil =>
    intro st R hw hinv h b r hb hr
    exact List.mem_append_left _ (hinv h b r hb hr)
  | cons e l ih =>
    intro st R hw hinv h b r hb hr
    have hmain := ih (step st e).1 (fun h2 => R h2 ++ reports [e] h2) (wf_step e hw)
      (c5_inv_step hw hinv) h b r hb hr
    rw [List.append_assoc] at hmain
    have hre : reports [e] h ++ reports l h = reports (e :: l) h :=
      (reports_append [e] l h).symm
    rw [hre] at hmain
    exact hmain

/-! ## The verified claims -/

set_option maxRecDepth 40000

/-- C1: Scenario A.  Processing BlockImport(node 1, height 10, "0xAA", prop 50),
then (node 2, prop 40), then (node 3, prop 40) from a state not tracking
"0xAA" emits no rows during the first two events; the third event finalizes
the record — reporters exactly nodes 2 and 3, lowestPropagationTime 40,
reportCount 3 — and emits exactly 2 rows, both with propagationTime 40. -/
theorem c1_scenario_a :
    (runEvents initState [.blockImport 1 10 "0xAA" 50 100,
        .blockImport 2 10 "0xAA" 40 101]).2 = []
    ∧ (step (runEvents initState [.blockImport 1 10 "0xAA" 50 100,
          .blockImport 2 10 "0xAA" 40 101]).1 (.blockImport 3 10 "0xAA" 40 102)).2
        = [⟨101, "unknown_node_2", "unknown_id", 10, "0xAA", 40⟩,
            ⟨102, "unknown_node_3", "unknown_id", 10, "0xAA", 40⟩]
    ∧ lookupA "0xAA" (runEvents initState [.blockImport 1 10 "0xAA" 50 100,
          .blockImport 2 10 "0xAA" 40 101, .blockImport 3 10 "0xAA" 40 102]).1.blocks
        = some ⟨10, 40, [⟨2, "unknown_node_2", "unknown_id", 101⟩,
            ⟨3, "unknown_node_3", "unknown_id", 102⟩], 100, 3, true⟩ := by
  decide

/-- C2 counterexample: a first import for an untracked hash with
propagationTime 1000000 (≥ 1) leaves the sentinel 999999 in place — not the
event's propagation time — and an empty reporter set, because the stored
"infinity" is the finite literal 999999, not +∞. -/
theorem c2_counterexample :
    ∃ b, lookupA "0xAA"
        (processBlockImport initState ⟨1, 10, "0xAA", 1000000, 0⟩).1.blocks = some b
      ∧ b.lowest_prop_time = 999999 ∧ b.lowest_prop_time ≠ 1000000 ∧ b.reporters = [] := by
  decide

/-- C2 amended: the get-or-create step initializes lowestPropagationTime to
the sentinel 999999 (not +∞); for a first report with 1 ≤ propagationTime ≤
999999 (and, to keep the fresh record from being evicted in the same pass, a
ledger below the retention window) the new record ends with
lowestPropagationTime equal to the event's propagation time, the single
reporting node as its only reporter, and reportCount 1. -/
theorem c2_sentinel_init (st : ObserverState) (e : BlockImportEv)
    (h1 : e.block_hash ≠ "") (h2 : 1 ≤ e.propagation_time)
    (h3 : e.propagation_time ≤ 999999)
    (hf : lookupA e.block_hash st.blocks = none) (hlen : st.blocks.length ≤ 99) :
    ∃ b, lookupA e.block_hash (processBlockImport st e).1.blocks = some b ∧
      b.lowest_prop_time = e.propagation_time ∧
      b.reporters.map (fun r => r.node_idx) = [e.node_idx] ∧
      b.report_count = 1 := by
  have hv : ¬(e.block_hash = "" ∨ e.propagation_time = 0) := by
    rw [not_or]
    exact ⟨h1, by omega⟩
  rw [processBlockImport_valid hv]
  dsimp only
  set B := blockUpdate e (nodeNameOf st e.node_idx) (nodeIdOf st e.node_idx) (newBlock e)
    with hB
  have hup : blocksAfterUpdate st e = st.blocks ++ [(e.block_hash, B)] :=
    blocksAfterUpdate_fresh hf
  have hlenS : ((sweepAll e.now (maxBlock (blocksAfterUpdate st e))
      (blocksAfterUpdate st e)).1).length ≤ 100 := by
    rw [sweepAll_fst, List.length_map, hup, List.length_append, List.length_singleton]
    omega
  rw [retention_of_length_le hlenS, lookupA_sweepAll]
  have hlk : lookupA e.block_hash (blocksAfterUpdate st e) = some B := by
    rw [hup, lookupA_append_of_none _ hf]
    exact lookupA_singleton _ _
  rw [hlk]
  refine ⟨(sweepOne e.now (maxBlock (blocksAfterUpdate st e)) e.block_hash B).1, rfl,
    ?_, ?_, ?_⟩
  all_goals
    have hf5 := sweepOne_fst_fields e.now (maxBlock (blocksAfterUpdate st e)) e.block_hash B
    have hBl : B.lowest_prop_time = e.propagation_time ∧
        B.reporters = [⟨e.node_idx, nodeNameOf st e.node_idx, nodeIdOf st e.node_idx, e.now⟩] ∧
        B.report_count = 1 := by
      rw [hB]
      by_cases hlt : e.propagation_time < (newBlock e).lowest_prop_time
      · rw [blockUpdate_eq_lower _ _ hlt]
        exact ⟨rfl, rfl, rfl⟩
      · have h999 : (newBlock e).lowest_prop_time = 999999 := rfl
        have heq : e.propagation_time = (newBlock e).lowest_prop_time := by
          rw [h999] at hlt ⊢
          omega
        have hany : ¬ ((newBlock e).reporters.any (fun x => x.node_idx == e.node_idx)
            = true) := by
          simp [newBlock]
        rw [blockUpdate_eq_push _ _ hlt heq hany]
        refine ⟨heq.symm, ?_, rfl⟩
        show (newBlock e).reporters ++ _ = _
        rw [show (newBlock e).reporters = [] from rfl]
        rw [List.nil_append]
  · rw [hf5.2.1, hBl.1]
  · rw [hf5.2.2.1, hBl.2.1]
    rfl
  · rw [hf5.2.2.2.2, hBl.2.2]

/-- C2 witness: a first report with propagation time 42 on the empty state
ends with lowestPropagationTime 42, reporter set exactly node 7, and
reportCount 1. -/
theorem c2_sentinel_init_witness :
    ∃ b, lookupA "0xBB" (processBlockImport initState ⟨7, 3, "0xBB", 42, 9⟩).1.blocks = some b ∧
      b.lowest_prop_time = 42 ∧
      b.reporters.map (fun r => r.node_idx) = [7] ∧
      b.report_count = 1 :=
  c2_sentinel_init initState ⟨7, 3, "0xBB", 42, 9⟩ (by decide) (by decide) (by decide)
    (by decide) (by decide)

/-- C6: a BlockImport whose hash is empty or whose propagation time is 0 is
dropped silently: the step returns the state unchanged (node registry,
ledger, every record) and emits no rows. -/
theorem c6_validation_drop (st : ObserverState) (ni bn : Nat) (h : String) (pr now : Nat)
    (hv : h = "" ∨ pr = 0) :
    step st (.blockImport ni bn h pr now) = (st, []) := by
  show processBlockImport st ⟨ni, bn, h, pr, now⟩ = (st, [])
  exact processBlockImport_invalid hv

/-- C6 witness: an empty-hash import on the empty state is a no-op. -/
theorem c6_validation_drop_witness :
    step initState (.blockImport 3 9 "" 5 77) = (initState, []) :=
  c6_validation_drop initState 3 9 "" 5 77 (Or.inl rfl)

/-- C8 counterexample: a BlockImport whose nodeOrdinal field is null (not a
number) is NOT dropped — `as_u64().unwrap_or(0)` defaults it to 0 and
processing continues, creating a record for "0xAA" attributed to the
nonexistent node 0. -/
theorem c8_counterexample :
    decodeBlockImport [.num 6, .arr [.null, .arr [.num 5, .str "0xAA", .null, .null, .num 40]]]
      = some (0, 5, "0xAA", 40)
    ∧ (processBlockImportRaw initState
        [.num 6, .arr [.null, .arr [.num 5, .str "0xAA", .null, .null, .num 40]]] 0).1
      ≠ initState
    ∧ lookupA "0xAA" (processBlockImportRaw initState
        [.num 6, .arr [.null, .arr [.num 5, .str "0xAA", .null, .null, .num 40]]] 0).1.blocks
      = some ⟨5, 40, [⟨0, "unknown_node_0", "unknown_id", 0⟩], 0, 1, false⟩ := by
  refine ⟨rfl, by decide, by decide⟩

/-- C8 amended: only STRUCTURAL shape failures (outer array shorter than 2,
payload or block data not an array, block data shorter than 5) drop the
event with no state change and no rows; missing or non-numeric scalar
fields are instead defaulted to 0 by `unwrap_or` and processing continues. -/
theorem c8_shape_drop (st : ObserverState) (a : List Json) (now : Nat)
    (hd : decodeBlockImport a = none) :
    processBlockImportRaw st a now = (st, []) := by
  unfold processBlockImportRaw
  rw [hd]

/-- C8 witness: a one-element message array fails the shape check and is
dropped with no state change. -/
theorem c8_shape_drop_witness :
    processBlockImportRaw initState [Json.num 6] 0 = (initState, []) :=
  c8_shape_drop initState [Json.num 6] 0 (by decide)

/-- C3: the retention invariant.  (a) After any event sequence processed
from startup the ledger holds at most 100 records.  (b) Whenever more than
100 hashes are tracked when the retention pass runs (distinct heights,
distinct keys), the records it retains are exactly those with fewer than
100 strictly taller records — i.e. the 100 highest blockNumbers — dropped
irrespective of the finalized flag.  (c) Scenario D: 150 imports of 150
distinct hashes at strictly increasing heights 1..150 leave exactly the
records of heights 51..150. -/
theorem c3_retention :
    (∀ evs : List Event, (runEvents initState evs).1.blocks.length ≤ 100)
    ∧ (∀ (l : List (String × BlockInfo)) (p : String × BlockInfo),
        (l.map Prod.fst).Nodup → (l.map (fun q => q.2.block_number)).Nodup →
        100 < l.length →
        (p ∈ retention l ↔ p ∈ l ∧
          (l.filter (fun q => decide (p.2.block_number < q.2.block_number))).length < 100))
    ∧ (runEvents initState evsD).1.blocks
        = (List.range 100).map (fun i => entD 150 (51 + i)) :=
  ⟨run_blocks_length_le,
    fun _ _ hk hn hl => retention_mem_iff hk hn hl,
    by rw [runD, stD_150_blocks]⟩

/-- C3 witness: on a 101-entry ledger with distinct keys and heights, the
tallest record (height 1000) is kept by the retention pass, being taller
than all others. -/
theorem c3_retention_witness :
    (toString 0, (⟨1000, 5, [], 0, 1, false⟩ : BlockInfo)) ∈ retention wit3 ↔
      ((toString 0, (⟨1000, 5, [], 0, 1, false⟩ : BlockInfo)) ∈ wit3 ∧
        (wit3.filter (fun q =>
          decide ((toString 0, (⟨1000, 5, [], 0, 1, false⟩ : BlockInfo)).2.block_number
            < q.2.block_number))).length < 100) :=
  c3_retention.2.1 wit3 (toString 0, ⟨1000, 5, [], 0, 1, false⟩)
    (by decide) (by decide) (by decide)

/-- C4 counterexample: after `evsA` the "0xAA" record is finalized
(output = true), yet processing the 100 filler imports `evsB` (which evict
"0xAA" from the retention window) followed by a fresh import `e3` of
"0xAA" emits another OutputRow for hash "0xAA" — a later processed event
emits a row for a hash whose record had already finalized. -/
theorem c4_counterexample :
    (∃ b, lookupA "0xAA" (runEvents initState evsA).1.blocks = some b ∧ b.output = true)
    ∧ (∃ row ∈ (runEvents (runEvents initState evsA).1 (evsB ++ [e3])).2,
        row.block_hash = "0xAA") := by
  have hA : (runEvents initState evsA).1 = stC4 0 := by decide
  constructor
  · rw [hA]
    exact ⟨⟨1, 5, rsA, 0, 3, true⟩, by decide, rfl⟩
  · refine ⟨⟨0, "unknown_node_1", "unknown_id", 1, "0xAA", 5⟩, ?_, rfl⟩
    rw [hA, runEvents_append (stC4 0) evsB [e3]]
    refine List.mem_append_right _ ?_
    rw [runB]
    have hrows : (runEvents (stC4 100) [e3]).2 = (step (stC4 100) e3).2 := by
      simp [runEvents]
    rw [hrows]
    decide

/-- C4 amended: once a record is finalized, then AS LONG AS IT REMAINS in
the ledger no later event emits a row for its hash and its flag never
reverts; the guarantee is per record, not per hash — if retention evicts
the finalized record, a later import of the same hash starts a fresh
record which can emit again. -/
theorem c4_flag_latch (evs : List Event) (ev : Event) (h : String) (b : BlockInfo)
    (hb : lookupA h (runEvents initState evs).1.blocks = some b) (hout : b.output = true) :
    (∀ row ∈ (step (runEvents initState evs).1 ev).2, row.block_hash ≠ h)
    ∧ (∀ b', lookupA h (step (runEvents initState evs).1 ev).1.blocks = some b' →
        b'.output = true) := by
  have hw := wf_run evs
  set st := (runEvents initState evs).1 with hst
  cases ev with
  | nodeAnnounce o n i =>
    constructor
    · intro row hrow _
      exact absurd hrow (List.not_mem_nil row)
    · intro b' hb'
      have h2 : lookupA h st.blocks = some b' := hb'
      rw [hb] at h2
      rw [← Option.some.inj h2]
      exact hout
  | blockImport ni bn bh pr now =>
    by_cases hv : (⟨ni, bn, bh, pr, now⟩ : BlockImportEv).block_hash = ""
        ∨ (⟨ni, bn, bh, pr, now⟩ : BlockImportEv).propagation_time = 0
    · constructor
      · intro row hrow _
        have hrow2 : row ∈ (processBlockImport st ⟨ni, bn, bh, pr, now⟩).2 := hrow
        rw [processBlockImport_invalid hv] at hrow2
        exact absurd hrow2 (List.not_mem_nil row)
      · intro b' hb'
        have hb'2 : lookupA h (processBlockImport st ⟨ni, bn, bh, pr, now⟩).1.blocks
            = some b' := hb'
        rw [processBlockImport_invalid hv] at hb'2
        rw [hb] at hb'2
        rw [← Option.some.inj hb'2]
        exact hout
    · constructor
      · exact fun row hrow => rows_import_ne hw hb hout row hrow
      · intro b' hb'
        rcases lookup_after_import hw hv hb' with ⟨b1, hb1, hbor⟩
        have hb1out : b1.output = true := by
          rw [lookupA_blocksAfterUpdate] at hb1
          dsimp only at hb1
          by_cases hk : h = bh
          · rw [if_pos hk] at hb1
            have he1 := Option.some.inj hb1
            have hbase : (lookupA bh st.blocks).getD (newBlock ⟨ni, bn, bh, pr, now⟩)
                = b := by
              rw [← hk, hb]
              rfl
            rw [← he1, (blockUpdate_fields _ _ _ _).2.2.1, hbase]
            exact hout
          · rw [if_neg hk, hb] at hb1
            rw [← Option.some.inj hb1]
            exact hout
        rcases hbor with rfl | rfl
        · exact hb1out
        · rfl

/-- C4 witness: with the finalized "0xAA" record in the ledger, a further
report of a different hash emits no "0xAA" row and leaves the flag set. -/
theorem c4_flag_latch_witness :
    (∀ row ∈ (step (runEvents initState evsA).1 (.blockImport 9 2 "0xBB" 7 0)).2,
      row.block_hash ≠ "0xAA")
    ∧ (∀ b', lookupA "0xAA"
        (step (runEvents initState evsA).1 (.blockImport 9 2 "0xBB" 7 0)).1.blocks = some b' →
        b'.output = true) :=
  c4_flag_latch evsA (.blockImport 9 2 "0xBB" 7 0) "0xAA" ⟨1, 5, rsA, 0, 3, true⟩
    (by decide) (by decide)

/-- C5 counterexample: node 1 reports hash "0xCC" at propagation time 40,
then again at 50.  Afterwards node 1 is still the record's only reporter
and lowestPropagationTime is 40, but node 1's MOST RECENT reported
propagation time is 50 ≠ 40 — the stated invariant fails. -/
theorem c5_counterexample :
    ∃ b, lookupA "0xCC" (runEvents initState
        [.blockImport 1 5 "0xCC" 40 0, .blockImport 1 5 "0xCC" 50 7]).1.blocks = some b
      ∧ b.reporters.map (fun r => r.node_idx) = [1]
      ∧ b.lowest_prop_time = 40
      ∧ lastReport [.blockImport 1 5 "0xCC" 40 0, .blockImport 1 5 "0xCC" 50 7] 1 "0xCC"
          = some 50
      ∧ (50 : Nat) ≠ 40 := by
  decide

/-- C5 amended: every reporter in a reachable record's reporter set has
SOME report in the processed history for that hash whose propagation time
equals the record's current lowestPropagationTime (namely the report that
inserted it), though not necessarily its most recent one. -/
theorem c5_reported_lowest (evs : List Event) (h : String) (b : BlockInfo)
    (r : BlockReporter)
    (hb : lookupA h (runEvents initState evs).1.blocks = some b)
    (hr : r ∈ b.reporters) :
    (r.node_idx, b.lowest_prop_time) ∈ reports evs h := by
  have hbase : ∀ h2 b2 r2, lookupA h2 initState.blocks = some b2 → r2 ∈ b2.reporters →
      (r2.node_idx, b2.lowest_prop_time) ∈ (fun _ : String => ([] : List (Nat × Nat))) h2 := by
    intro h2 b2 r2 hb2 _
    exact absurd hb2 (by simp [initState, lookupA])
  have hmain := c5_inv_runFrom evs initState (fun _ => []) (by simp [WF, initState])
    hbase h b r hb hr
  simpa using hmain

/-- C5 witness: after a single report of "0xAB" by node 2 at propagation
time 40, the reporter node 2 indeed has the report (2, 40) in the history. -/
theorem c5_reported_lowest_witness :
    ((2 : Nat), (40 : Nat)) ∈ reports [Event.blockImport 2 4 "0xAB" 40 0] "0xAB" :=
  c5_reported_lowest [Event.blockImport 2 4 "0xAB" 40 0] "0xAB"
    ⟨4, 40, [⟨2, "unknown_node_2", "unknown_id", 0⟩], 0, 1, false⟩
    ⟨2, "unknown_node_2", "unknown_id", 0⟩ (by decide) (by decide)

/-- C7: lowestPropagationTime is non-increasing — at any reachable state,
if hash h is tracked with record b and is still tracked with record b'
after one more event, then b'.lowestPropagationTime ≤
b.lowestPropagationTime. -/
theorem c7_lowest_nonincreasing (evs : List Event) (ev : Event) (h : String)
    (b b' : BlockInfo)
    (hb : lookupA h (runEvents initState evs).1.blocks = some b)
    (hb' : lookupA h (step (runEvents initState evs).1 ev).1.blocks = some b') :
    b'.lowest_prop_time ≤ b.lowest_prop_time := by
  have hw := wf_run evs
  set st := (runEvents initState evs).1 with hst
  cases ev with
  | nodeAnnounce o n i =>
    have h2 : lookupA h st.blocks = some b' := hb'
    rw [hb] at h2
    rw [← Option.some.inj h2]
  | blockImport ni bn bh pr now =>
    by_cases hv : (⟨ni, bn, bh, pr, now⟩ : BlockImportEv).block_hash = ""
        ∨ (⟨ni, bn, bh, pr, now⟩ : BlockImportEv).propagation_time = 0
    · have hb'2 : lookupA h (processBlockImport st ⟨ni, bn, bh, pr, now⟩).1.blocks
          = some b' := hb'
      rw [processBlockImport_invalid hv] at hb'2
      rw [hb] at hb'2
      rw [← Option.some.inj hb'2]
    · rcases lookup_after_import hw hv hb' with ⟨b1, hb1, hbor⟩
      have hble : b'.lowest_prop_time = b1.lowest_prop_time := by
        rcases hbor with rfl | rfl <;> rfl
      rw [lookupA_blocksAfterUpdate] at hb1
      dsimp only at hb1
      by_cases hk : h = bh
      · rw [if_pos hk] at hb1
        have he1 := Option.some.inj hb1
        have hbase : (lookupA bh st.blocks).getD (newBlock ⟨ni, bn, bh, pr, now⟩) = b := by
          rw [← hk, hb]
          rfl
        rw [hble, ← he1, hbase]
        exact (blockUpdate_fields _ _ _ _).2.2.2.1
      · rw [if_neg hk, hb] at hb1
        rw [hble, ← Option.some.inj hb1]

/-- C7 witness: a second, lower report for "0xAA" drops
lowestPropagationTime from 50 to 40 (40 ≤ 50). -/
theorem c7_lowest_nonincreasing_witness : (40 : Nat) ≤ 50 :=
  c7_lowest_nonincreasing [.blockImport 1 10 "0xAA" 50 0]
    (.blockImport 2 10 "0xAA" 40 1) "0xAA"
    ⟨10, 50, [⟨1, "unknown_node_1", "unknown_id", 0⟩], 0, 1, false⟩
    ⟨10, 40, [⟨2, "unknown_node_2", "unknown_id", 1⟩], 0, 2, false⟩
    (by decide) (by decide)

/-- C9: frame condition — an event touching an already-tracked hash leaves
the existing record's blockNumber and firstSeenTimestamp unchanged (even
when the event carries a different blockNumber). -/
theorem c9_frame (evs : List Event) (ev : Event) (h : String) (b b' : BlockInfo)
    (hb : lookupA h (runEvents initState evs).1.blocks = some b)
    (hb' : lookupA h (step (runEvents initState evs).1 ev).1.blocks = some b') :
    b'.block_number = b.block_number ∧ b'.first_seen = b.first_seen := by
  have hw := wf_run evs
  set st := (runEvents initState evs).1 with hst
  cases ev with
  | nodeAnnounce o n i =>
    have h2 : lookupA h st.blocks = some b' := hb'
    rw [hb] at h2
    rw [← Option.some.inj h2]
    exact ⟨rfl, rfl⟩
  | blockImport ni bn bh pr now =>
    by_cases hv : (⟨ni, bn, bh, pr, now⟩ : BlockImportEv).block_hash = ""
        ∨ (⟨ni, bn, bh, pr, now⟩ : BlockImportEv).propagation_time = 0
    · have hb'2 : lookupA h (processBlockImport st ⟨ni, bn, bh, pr, now⟩).1.blocks
          = some b' := hb'
      rw [processBlockImport_invalid hv] at hb'2
      rw [hb] at hb'2
      rw [← Option.some.inj hb'2]
      exact ⟨rfl, rfl⟩
    · rcases lookup_after_import hw hv hb' with ⟨b1, hb1, hbor⟩
      have hble : b'.block_number = b1.block_number ∧ b'.first_seen = b1.first_seen := by
        rcases hbor with rfl | rfl <;> exact ⟨rfl, rfl⟩
      rw [lookupA_blocksAfterUpdate] at hb1
      dsimp only at hb1
      by_cases hk : h = bh
      · rw [if_pos hk] at hb1
        have he1 := Option.some.inj hb1
        have hbase : (lookupA bh st.blocks).getD (newBlock ⟨ni, bn, bh, pr, now⟩) = b := by
          rw [← hk, hb]
          rfl
        rw [hble.1, hble.2, ← he1, hbase]
        exact ⟨(blockUpdate_fields _ _ _ _).1, (blockUpdate_fields _ _ _ _).2.1⟩
      · rw [if_neg hk, hb] at hb1
        rw [hble.1, hble.2, ← Option.some.inj hb1]
        exact ⟨rfl, rfl⟩

/-- C9 witness: a second report for "0xAA" carrying blockNumber 99 leaves
the stored blockNumber 10 and firstSeen 0 unchanged. -/
theorem c9_frame_witness : (10 : Nat) = 10 ∧ (0 : Nat) = 0 :=
  c9_frame [.blockImport 1 10 "0xAA" 50 0] (.blockImport 2 99 "0xAA" 40 1) "0xAA"
    ⟨10, 50, [⟨1, "unknown_node_1", "unknown_id", 0⟩], 0, 1, false⟩
    ⟨10, 40, [⟨2, "unknown_node_2", "unknown_id", 1⟩], 0, 2, false⟩
    (by decide) (by decide)

/-- C10: the sweep's subtraction `now - first_seen` cannot underflow when
`now` bounds every tracked firstSeen: (a) every record examined by the
sweep (the post-update ledger) then has first_seen ≤ now; (b) states
reached from the empty ledger under events whose clocks are bounded by `t`
keep every firstSeen ≤ t, so a non-decreasing clock maintains the
precondition; (c) the precondition is NOT automatic for an arbitrary
(e.g. snapshot-restored) state: a state holding firstSeen 10 violates it
at now = 5. -/
theorem c10_no_underflow :
    (∀ (st : ObserverState) (e : BlockImportEv) p,
        (∀ q ∈ st.blocks, q.2.first_seen ≤ e.now) →
        p ∈ blocksAfterUpdate st e → p.2.first_seen ≤ e.now)
    ∧ (∀ (evs : List Event) (t : Nat), (∀ ev ∈ evs, eventTime ev ≤ t) →
        ∀ p ∈ (runEvents initState evs).1.blocks, p.2.first_seen ≤ t)
    ∧ ¬ (∀ q ∈ (⟨[], [("0xEE", ⟨7, 999999, [], 10, 0, false⟩)]⟩ : ObserverState).blocks,
        q.2.first_seen ≤ 5) := by
  refine ⟨?_, ?_, ?_⟩
  · intro st e p hb hp
    rcases mem_first_seen_blocksAfterUpdate hp with ⟨q, hq, he⟩ | he
    · rw [he]
      exact hb q hq
    · rw [he]
  · intro evs t hev
    refine first_seen_runFrom evs initState hev ?_
    intro p hp
    exact absurd hp (List.not_mem_nil p)
  · intro hall
    have h10 := hall ("0xEE", ⟨7, 999999, [], 10, 0, false⟩) (List.mem_singleton_self _)
    exact absurd h10 (by decide)

/-- C10 witness: with the empty ledger and an import at clock 9, the
post-update ledger's only record has firstSeen 9 ≤ 9, and the run bound
holds for that one-event history at t = 9. -/
theorem c10_no_underflow_witness :
    (("0xAB", (⟨3, 5, [⟨1, "unknown_node_1", "unknown_id", 9⟩], 9, 1, false⟩ : BlockInfo))
        : String × BlockInfo).2.first_seen ≤ 9
    ∧ ∀ p ∈ (runEvents initState [Event.blockImport 1 3 "0xAB" 5 9]).1.blocks,
        p.2.first_seen ≤ 9 :=
  ⟨c10_no_underflow.1 initState ⟨1, 3, "0xAB", 5, 9⟩
      ("0xAB", ⟨3, 5, [⟨1, "unknown_node_1", "unknown_id", 9⟩], 9, 1, false⟩)
      (by simp [initState]) (by decide),
    c10_no_underflow.2.1 [Event.blockImport 1 3 "0xAB" 5 9] 9 (by decide)⟩

end TelemetryObs
